import Mathlib

/-!
# Verification of the Schnek dependency-graph builder and resolver

Shallow embedding of `dependencies.cpp` (class `DependencyMap` and
`DependencyUpdater`).  Identifiers (`long` in the C++) are modelled as `Int`.
The `std::map<long, VarInfo>` member `dependencies` is modelled as a finite
key set together with a total valuation function; `operator[]`'s
default-inserting behaviour is modelled explicitly by `DepMap.getOrInsert`.
The transient `RefDepMap` maps of `VarInfo*` pointers into `dependencies` are
modelled as sets of keys, with all reads and writes going through the main
map (the pointer target).  The breadth-first worklist loops and the
topological-sort loop are written with an explicit fuel argument that is
computed from a bound on the loop measure at the call site; lemmas below show
the fuel never runs out, so the fuel-exhaustion branches are dead code.
-/

namespace Schnek

/-- A variable of the scope tree.  `deps` is the set of identifiers returned
by the external expression analyzer (`DependenciesGetter` applied to the
variable's expression); the expression itself is opaque to the core, so the
analyzer's result is carried directly. -/
structure Variable where
  id : Int
  isConstant : Bool
  deps : Finset Int
  deriving DecidableEq

/-- A node record of the dependency map (`VarInfo`): the variable (a
`pVariable`, possibly null for default-constructed nodes), the forward edge
set `dependsOn`, the reverse edge set `modifies`, and the working counter. -/
structure VarInfo where
  v : Option Variable
  dependsOn : Finset Int
  modifies : Finset Int
  counter : Int
  deriving DecidableEq

instance : Inhabited VarInfo := ⟨⟨none, ∅, ∅, 0⟩⟩

/-- The `std::map<long, VarInfo>` member `dependencies`: a finite set of keys
plus a total valuation (only meaningful on `keys`). -/
structure DepMap where
  keys : Finset Int
  val : Int → VarInfo

/-- Map lookup: the stored record for present keys, a default-constructed
`VarInfo` otherwise. -/
def DepMap.find (m : DepMap) (id : Int) : VarInfo :=
  if id ∈ m.keys then m.val id else default

/-- Models `operator[]` used as an lvalue: default-insert the key if absent. -/
def DepMap.getOrInsert (m : DepMap) (id : Int) : DepMap :=
  if id ∈ m.keys then m else ⟨insert id m.keys, Function.update m.val id default⟩

/-- Store a record under a key (insert or overwrite). -/
def DepMap.set (m : DepMap) (id : Int) (vi : VarInfo) : DepMap :=
  ⟨insert id m.keys, Function.update m.val id vi⟩

/-- Write through a `VarInfo*` pointer to the `counter` field. -/
def DepMap.setCounter (m : DepMap) (id : Int) (c : Int) : DepMap :=
  m.set id { m.find id with counter := c }

/-- The empty map (`dependencies` before `constructMap`). -/
def DepMap.empty : DepMap := ⟨∅, fun _ => default⟩

/-- All identifiers mentioned by the map: its keys together with every
identifier appearing in some node's `dependsOn` set.  Used only to bound the
breadth-first loops. -/
def DepMap.univIds (m : DepMap) : Finset Int :=
  m.keys ∪ m.keys.biUnion fun k => (m.val k).dependsOn

/-- Ascending list of the elements of a finite identifier set: the
iteration order of `std::map` and `std::set` over `long` keys.  Implemented
with insertion sort (structural recursion) so that concrete runs evaluate
by kernel reduction. -/
def ascSort (s : Finset Int) : List Int :=
  Quotient.liftOn s.val (fun l => l.insertionSort (· ≤ ·))
    (fun l1 l2 h => by
      refine List.eq_of_perm_of_sorted ?_ (List.sorted_insertionSort _ l1)
        (List.sorted_insertionSort _ l2)
      exact (List.perm_insertionSort _ l1).trans
        (h.trans (List.perm_insertionSort _ l2).symm))

theorem ascSort_mem (s : Finset Int) (x : Int) : x ∈ ascSort s ↔ x ∈ s := by
  rcases s with ⟨val, hnd⟩
  induction val using Quotient.inductionOn with
  | h l =>
    show x ∈ l.insertionSort (· ≤ ·) ↔ _
    rw [(List.perm_insertionSort (· ≤ ·) l).mem_iff]
    simp [Finset.mem_mk]

theorem ascSort_nodup (s : Finset Int) : (ascSort s).Nodup := by
  rcases s with ⟨val, hnd⟩
  induction val using Quotient.inductionOn with
  | h l =>
    show (l.insertionSort (· ≤ ·)).Nodup
    exact ((List.perm_insertionSort (· ≤ ·) l).nodup_iff).mpr
      (Multiset.coe_nodup.mp hnd)

/-- Errors of the embedded code: `schnekException` models
`throw SchnekException()`, `assertFailed` models a failed `assert` (a process
abort in the C++, surfaced as an error outcome in the embedding). -/
inductive SchnekError where
  | schnekException
  | assertFailed
  deriving DecidableEq

/-- A scope-tree node (`BlockVariables`): its locally owned variables in
iteration order and its child scopes. -/
inductive BlockVariables where
  | node (vars : List Variable) (children : List BlockVariables)

/-- The variable loop of `DependencyMap::constructMapRecursive`: for each
non-constant variable, throw if its identifier is already a key, otherwise
store `VarInfo(v, dep, DependencySet())`. -/
def constructMapVars (vars : List Variable) (m : DepMap) : Except SchnekError DepMap :=
  match vars with
  | [] => .ok m
  | v :: rest =>
    if v.isConstant then constructMapVars rest m
    else if v.id ∈ m.keys then .error .schnekException
    else constructMapVars rest (m.set v.id ⟨some v, v.deps, ∅, 0⟩)

mutual

/-- Body of `DependencyMap::constructMapRecursive`: process the scope's own
variables, then recurse into the children. -/
def constructMapRecursive (bv : BlockVariables) (m : DepMap) : Except SchnekError DepMap :=
  match bv with
  | .node vars children =>
    match constructMapVars vars m with
    | .error e => .error e
    | .ok m1 => constructMapChildren children m1

/-- The child loop of `constructMapRecursive`. -/
def constructMapChildren (l : List BlockVariables) (m : DepMap) : Except SchnekError DepMap :=
  match l with
  | [] => .ok m
  | ch :: rest =>
    match constructMapRecursive ch m with
    | .error e => .error e
    | .ok m1 => constructMapChildren rest m1

end

/-- One inner step of the inverse pass of `constructMap`:
`dependencies[d].modifies.insert(id)` (default-inserting `d` if absent). -/
def addModify (m : DepMap) (d : Int) (id : Int) : DepMap :=
  let m1 := m.getOrInsert d
  m1.set d { m1.find d with modifies := insert id (m1.find d).modifies }

/-- The inverse pass of `DependencyMap::constructMap`: for every entry (in
ascending key order, as `std::map` iterates) and every identifier in its
`dependsOn` set, insert the entry's key into that identifier's `modifies`
set.  Entries default-inserted during the pass have empty `dependsOn`, so
whether the `std::map` iterator visits them is immaterial; the fold ranges
over the original keys. -/
def constructMapInverse (m : DepMap) : DepMap :=
  (ascSort m.keys).foldl
    (fun acc id => (ascSort (m.val id).dependsOn).foldl (fun a d => addModify a d id) acc)
    m

/-- Body of `DependencyMap::constructMap` (as invoked by the constructor on an empty
`dependencies` member): the recursive build followed by the inverse pass. -/
def constructMap (bv : BlockVariables) : Except SchnekError DepMap :=
  (constructMapRecursive bv DepMap.empty).map constructMapInverse

/-- Body of `DependencyMap::resetCounters` as written: the map is iterated with
`BOOST_FOREACH(DepMap::value_type entry, dependencies)`, which copies each
entry by value, so `entry.second.counter = entry.second.dependsOn.size()`
assigns to a per-iteration copy and the stored map is not changed. -/
def resetCounters (m : DepMap) : DepMap :=
  (ascSort m.keys).foldl
    (fun acc id =>
      let entry : Int × VarInfo := (id, acc.find id)
      let _ := { entry.2 with counter := (entry.2.dependsOn.card : Int) }
      acc)
    m

/-- The inner loop of `DependencyMap::makeUpdatePredecessors`: scan the
popped node's `dependsOn` identifiers; each one not yet in `predecessors` is
default-inserted into `dependencies` (`operator[]`), recorded in
`predecessors`, and appended to the working set.  Returns the updated heap,
the updated predecessor set, and the list of newly enqueued identifiers in
scan order. -/
def predProcessDeps (h : DepMap) (preds : Finset Int) (ds : List Int) :
    DepMap × Finset Int × List Int :=
  match ds with
  | [] => (h, preds, [])
  | d :: rest =>
    if d ∈ preds then predProcessDeps h preds rest
    else
      let t := predProcessDeps (h.getOrInsert d) (insert d preds) rest
      (t.1, t.2.1, d :: t.2.2)

/-- The worklist loop of `makeUpdatePredecessors`, with explicit fuel.  The
fuel-exhaustion branch is dead code for the fuel chosen by
`makeUpdatePredecessors` (see `predLoopFuel_closed`). -/
def predLoopFuel : Nat → DepMap → Finset Int → List Int → DepMap × Finset Int
  | 0, h, preds, _ => (h, preds)
  | _ + 1, h, preds, [] => (h, preds)
  | fuel + 1, h, preds, id :: rest =>
    let t := predProcessDeps h preds (ascSort (h.find id).dependsOn)
    predLoopFuel fuel t.1 t.2.1 (rest ++ t.2.2)

/-- The initialisation loop of `makeUpdatePredecessors`: seed the working set
and the predecessor map with the dependent variables; each
`dependencies[id]` access default-inserts a missing key. -/
def predInit (m : DepMap) (dependentVars : List Variable) :
    DepMap × Finset Int × List Int :=
  dependentVars.foldl
    (fun (s : DepMap × Finset Int × List Int) v =>
      (s.1.getOrInsert v.id, insert v.id s.2.1, s.2.2 ++ [v.id]))
    (m, ∅, [])

/-- Body of `DependencyMap::makeUpdatePredecessors`: seed the working set and the
predecessor map with the dependent variables, then run the worklist loop.
Returns the possibly grown heap and the predecessor key set. -/
def makeUpdatePredecessors (m : DepMap) (dependentVars : List Variable) :
    DepMap × Finset Int :=
  let s := predInit m dependentVars
  predLoopFuel (2 * s.1.univIds.card + s.2.2.length + 1) s.1 s.2.1 s.2.2

/-- The inner loop of `DependencyMap::makeUpdateFollowers`: scan the popped
node's `modifies` identifiers; skip those already in `followers` or not in
`predecessors`; record and enqueue the rest. -/
def follProcessMods (preds : Finset Int) (foll : Finset Int) (ds : List Int) :
    Finset Int × List Int :=
  match ds with
  | [] => (foll, [])
  | d :: rest =>
    if d ∈ foll ∨ d ∉ preds then follProcessMods preds foll rest
    else
      let t := follProcessMods preds (insert d foll) rest
      (t.1, d :: t.2)

/-- The worklist loop of `makeUpdateFollowers`, with explicit fuel (dead
branch for the fuel chosen by `makeUpdateFollowers`). -/
def follLoopFuel : Nat → DepMap → Finset Int → Finset Int → List Int → Finset Int
  | 0, _, _, foll, _ => foll
  | _ + 1, _, _, foll, [] => foll
  | fuel + 1, h, preds, foll, id :: rest =>
    let t := follProcessMods preds foll (ascSort (h.find id).modifies)
    follLoopFuel fuel h preds t.1 (rest ++ t.2)

/-- The initialisation loop of `makeUpdateFollowers`: seed the working set and
the follower map with those independent variables already present in
`predecessors`. -/
def follInit (independentVars : List Variable) (preds : Finset Int) :
    Finset Int × List Int :=
  independentVars.foldl
    (fun (s : Finset Int × List Int) v =>
      if v.id ∈ preds then (insert v.id s.1, s.2 ++ [v.id]) else s)
    (∅, [])

/-- Body of `DependencyMap::makeUpdateFollowers` continued: run the worklist loop
over `modifies` edges restricted to `predecessors`.  The heap is only read,
never written. -/
def makeUpdateFollowers (h : DepMap) (independentVars : List Variable)
    (preds : Finset Int) : Finset Int :=
  let s := follInit independentVars preds
  follLoopFuel (2 * preds.card + s.2.length + 1) h preds s.1 s.2

/-- The counter-initialisation pass of `DependencyMap::makeUpdateOrder`: for
every entry of `deps` (ascending key order), set its counter to the number of
its `dependsOn` identifiers that are themselves keys of `deps`. -/
def initCounters (h : DepMap) (D : Finset Int) : DepMap :=
  (ascSort D).foldl
    (fun acc id => acc.setCounter id ((((acc.find id).dependsOn ∩ D).card : Int)))
    h

/-- The decrement loop of `makeUpdateOrder`: for each identifier in the
emitted node's `modifies` set, skip it if it is not a key of `deps`,
otherwise decrement its counter; `assert(vi->counter >= 0)` is modelled as an
error outcome. -/
def decrFold (h : DepMap) (D : Finset Int) (ds : List Int) : Except SchnekError DepMap :=
  match ds with
  | [] => .ok h
  | d :: rest =>
    if d ∉ D then decrFold h D rest
    else
      let c := (h.find d).counter - 1
      if c < 0 then .error .assertFailed
      else decrFold (h.setCounter d c) D rest

/-- The main loop of `makeUpdateOrder`, with explicit fuel (dead branch: each
iteration erases one working-set element, so `|workingSet| + 1` fuel always
suffices).  Scan the working set for the first node with counter zero; if
none exists while the set is non-empty, `assert(nextEval != 0)` fails
(modelled as an error); otherwise erase it, append `(id, nextEval->v)` to the
update list, and decrement the counters of its in-`deps` `modifies`
targets. -/
def orderLoopFuel : Nat → DepMap → Finset Int → List Int → List (Int × Option Variable) →
    Except SchnekError (DepMap × List (Int × Option Variable))
  | 0, h, _, _, acc => .ok (h, acc)
  | _ + 1, h, _, [], acc => .ok (h, acc)
  | fuel + 1, h, D, w :: rest, acc =>
    match (w :: rest).find? (fun id => (h.find id).counter == 0) with
    | none => .error .assertFailed
    | some id =>
      match decrFold h D (ascSort (h.find id).modifies) with
      | .error e => .error e
      | .ok h2 =>
        orderLoopFuel fuel h2 D ((w :: rest).erase id) (acc ++ [(id, (h.find id).v)])

/-- Body of `DependencyMap::makeUpdateOrder`: clear the update list, initialise the
counters of the `deps` subgraph, and run the zero-counter selection loop.
The working set is the `deps` entries in ascending key order, as iterated
from the `RefDepMap`.  The `independentVars` parameter is part of the C++
signature but unused by the body. -/
def makeUpdateOrder (h : DepMap) (independentVars : List Variable) (D : Finset Int) :
    Except SchnekError (DepMap × List (Int × Option Variable)) :=
  let _ := independentVars
  orderLoopFuel ((ascSort D).length + 1) (initCounters h D) D (ascSort D) []

/-- Body of `DependencyMap::makeUpdateList`: the three phases composed.  The result
carries the final heap (the `dependencies` member after the call) and the
update list; each list element pairs the emitted node's key with the
`pVariable` pushed by `updateList.push_back(nextEval->v)`. -/
def makeUpdateList (m : DepMap) (independentVars dependentVars : List Variable) :
    Except SchnekError (DepMap × List (Int × Option Variable)) :=
  let r := makeUpdatePredecessors m dependentVars
  let follows := makeUpdateFollowers r.1 independentVars r.2
  makeUpdateOrder r.1 independentVars follows

/-- The identifiers of the produced update list, in order. -/
def updListIds (m : DepMap) (independentVars dependentVars : List Variable) :
    Except SchnekError (List Int) :=
  (makeUpdateList m independentVars dependentVars).map fun r => r.2.map Prod.fst

/-- The key set of `dependencies` after a `makeUpdateList` call. -/
def updMapKeys (m : DepMap) (independentVars dependentVars : List Variable) :
    Except SchnekError (Finset Int) :=
  (makeUpdateList m independentVars dependentVars).map fun r => r.1.keys

/-- State of a `DependencyUpdater`: the session state over a dependency map. -/
structure DependencyUpdater where
  dependencies : DepMap
  independentVars : Finset Variable
  dependentVars : Finset Variable
  updateList : List (Int × Option Variable)
  isValid : Bool

/-- The `DependencyUpdater` constructor: stores the map, leaves the variable
sets and the cached list default-constructed (empty), and initialises
`isValid` to `true`. -/
def DependencyUpdater.create (dependencies : DepMap) : DependencyUpdater :=
  ⟨dependencies, ∅, ∅, [], true⟩

/-- Body of `DependencyUpdater::addIndependent`. -/
def DependencyUpdater.addIndependent (s : DependencyUpdater) (v : Variable) :
    DependencyUpdater :=
  { s with independentVars := insert v s.independentVars, isValid := false }

/-- Body of `DependencyUpdater::addDependent`. -/
def DependencyUpdater.addDependent (s : DependencyUpdater) (v : Variable) :
    DependencyUpdater :=
  { s with dependentVars := insert v s.dependentVars, isValid := false }

/-! ## Specification-side definitions

The following definitions follow the specification's words; they are compared
with the behaviour of the embedded code in the refinement theorems below. -/

/-- The `dependsOn` edge relation of a map: `a` depends directly on `b`. -/
def dependsEdge (m : DepMap) (a b : Int) : Prop :=
  b ∈ (m.find a).dependsOn

/-- Membership in the backward transitive closure of the dependent variables
along `dependsOn` edges, the dependents themselves included. -/
def requiredBy (m : DepMap) (dependentVars : List Variable) (x : Int) : Prop :=
  ∃ v ∈ dependentVars, Relation.ReflTransGen (dependsEdge m) v.id x

/-- The `modifies` edge relation of a map restricted to a set `S`: a step
from `a` to `b` along a reverse edge that stays inside `S`. -/
def modEdgeIn (m : DepMap) (S : Set Int) (a b : Int) : Prop :=
  b ∈ (m.find a).modifies ∧ b ∈ S

/-- Membership in the forward closure: reachable from some independent
variable that is itself required, following `modifies` edges while staying
inside the set of required nodes. -/
def relevantNode (m : DepMap) (independentVars dependentVars : List Variable)
    (x : Int) : Prop :=
  ∃ v ∈ independentVars, requiredBy m dependentVars v.id ∧
    Relation.ReflTransGen (modEdgeIn m {y | requiredBy m dependentVars y}) v.id x

/-- A dependency cycle inside the set `S` following `dependsOn` edges. -/
def hasCycleIn (m : DepMap) (S : Finset Int) : Prop :=
  ∃ x, Relation.TransGen (fun a b => a ∈ S ∧ b ∈ S ∧ b ∈ (m.find a).dependsOn) x x

/-- Structural well-formedness of a built dependency map: every edge target
is a key, and `modifies` is the inverse of `dependsOn` on keys.  The theorem
`constructMap_wf` shows every successfully built map satisfies it. -/
def WFMap (m : DepMap) : Prop :=
  (∀ x ∈ m.keys, (m.val x).dependsOn ⊆ m.keys ∧ (m.val x).modifies ⊆ m.keys) ∧
    ∀ x ∈ m.keys, ∀ y ∈ m.keys, (x ∈ (m.val y).dependsOn ↔ y ∈ (m.val x).modifies)

instance (m : DepMap) : Decidable (WFMap m) := by
  unfold WFMap; infer_instance

mutual

/-- The identifiers of the non-constant variables of a scope tree, in the
traversal order of `constructMapRecursive`. -/
def nonConstIds (bv : BlockVariables) : List Int :=
  match bv with
  | .node vars children =>
    (vars.filter (fun v => !v.isConstant)).map Variable.id ++ nonConstIdsList children

/-- The identifiers of the non-constant variables of a scope forest. -/
def nonConstIdsList (l : List BlockVariables) : List Int :=
  match l with
  | [] => []
  | ch :: rest => nonConstIds ch ++ nonConstIdsList rest

end

/-- Erase from every node's `dependsOn` set the identifiers that are not
keys of the subgraph `D`; used to state that out-of-subgraph references are
ignored by the topological pass. -/
def filterDependsOn (m : DepMap) (D : Finset Int) : DepMap :=
  ⟨m.keys, fun id => { m.val id with dependsOn := (m.val id).dependsOn ∩ D }⟩

/-- The update list of `makeUpdateOrder` with the final heap projected away
(identifier and pushed `pVariable` of every emitted node, in order). -/
def orderListOf (h : DepMap) (independentVars : List Variable) (D : Finset Int) :
    Except SchnekError (List (Int × Option Variable)) :=
  (makeUpdateOrder h independentVars D).map fun r => r.2

/-! ## Concrete example data

A small scope tree matching the specification's concrete scenario (`A`
depends on nothing, `B` reads `A`, `C` reads `B`, `D` is unrelated), a
two-node cyclic tree, a tree with a duplicated identifier, and a map with a
stale counter. -/

/-- Example variable `A` (identifier 1, no dependencies). -/
def varA : Variable := ⟨1, false, ∅⟩

/-- Example variable `B` (identifier 2, reads `A`). -/
def varB : Variable := ⟨2, false, {1}⟩

/-- Example variable `C` (identifier 3, reads `B`). -/
def varC : Variable := ⟨3, false, {2}⟩

/-- Example variable `D` (identifier 4, unrelated). -/
def varD : Variable := ⟨4, false, ∅⟩

/-- Example constant variable with identifier 99, absent from the graph. -/
def varX : Variable := ⟨99, true, ∅⟩

/-- The example scope tree with variables `A`, `B`, `C`, `D`. -/
def exampleTree : BlockVariables := .node [varA, varB, varC, varD] []

/-- The dependency map built from `exampleTree`. -/
def exampleMap : DepMap :=
  match constructMap exampleTree with
  | .ok m => m
  | .error _ => DepMap.empty

/-- Cyclic variable `A` (reads `B`). -/
def cycA : Variable := ⟨1, false, {2}⟩

/-- Cyclic variable `B` (reads `A`). -/
def cycB : Variable := ⟨2, false, {1}⟩

/-- A scope tree whose two variables depend on each other. -/
def cycleTree : BlockVariables := .node [cycA, cycB] []

/-- The dependency map built from `cycleTree`. -/
def cycleMap : DepMap :=
  match constructMap cycleTree with
  | .ok m => m
  | .error _ => DepMap.empty

/-- A scope tree in which a child scope re-declares identifier 1. -/
def dupTree : BlockVariables := .node [varA] [.node [⟨1, false, ∅⟩] []]

/-- A map whose single node has a stale counter (5) differing from the size
of its `dependsOn` set (1). -/
def staleMap : DepMap := DepMap.empty.set 2 ⟨some varB, {1}, ∅, 5⟩

/-- Extract the payload of a successful resolver run (used to name concrete
outputs in closed statements). -/
def exceptOk (e : Except SchnekError (DepMap × List (Int × Option Variable))) :
    DepMap × List (Int × Option Variable) :=
  match e with
  | .ok r => r
  | .error _ => (DepMap.empty, [])

/-- The concrete resolver run on `exampleMap` with independents `{A}` and
dependents `{C}`. -/
def exampleRun : DepMap × List (Int × Option Variable) :=
  exceptOk (makeUpdateList exampleMap [varA] [varC])

/-- Agreement of two maps up to the transient `counter` field: same keys and
same `v`, `dependsOn`, `modifies` on every node.  The resolver only ever
writes counters, so its heap stays in this relation to the input map. -/
def agreeButCounter (a b : DepMap) : Prop :=
  a.keys = b.keys ∧ ∀ x, (a.find x).dependsOn = (b.find x).dependsOn ∧
    (a.find x).modifies = (b.find x).modifies ∧ (a.find x).v = (b.find x).v

/-! ## Basic lemmas about the map operations -/

theorem agreeButCounter_refl (a : DepMap) : agreeButCounter a a :=
  ⟨rfl, fun _ => ⟨rfl, rfl, rfl⟩⟩

theorem agreeButCounter_trans {a b c : DepMap} (h1 : agreeButCounter a b)
    (h2 : agreeButCounter b c) : agreeButCounter a c := by
  refine ⟨h1.1.trans h2.1, fun x => ?_⟩
  obtain ⟨k1, d1, m1⟩ := h1.2 x
  obtain ⟨k2, d2, m2⟩ := h2.2 x
  exact ⟨k1.trans k2, d1.trans d2, m1.trans m2⟩

theorem DepMap.find_getOrInsert (m : DepMap) (d x : Int) :
    (m.getOrInsert d).find x = m.find x := by
  unfold DepMap.getOrInsert DepMap.find
  by_cases hd : d ∈ m.keys
  · simp [hd]
  · by_cases hx : x = d
    · subst hx
      simp [hd]
    · simp [hd, Finset.mem_insert, hx, Function.update_noteq hx]

theorem DepMap.keys_getOrInsert (m : DepMap) (d : Int) :
    (m.getOrInsert d).keys = insert d m.keys := by
  unfold DepMap.getOrInsert
  by_cases hd : d ∈ m.keys
  · simp [hd, Finset.insert_eq_self.mpr hd]
  · simp [hd]

theorem DepMap.keys_set (m : DepMap) (id : Int) (vi : VarInfo) :
    (m.set id vi).keys = insert id m.keys := rfl

theorem DepMap.find_set_self (m : DepMap) (id : Int) (vi : VarInfo) :
    (m.set id vi).find id = vi := by
  unfold DepMap.set DepMap.find
  simp

theorem DepMap.find_set_ne (m : DepMap) (id : Int) (vi : VarInfo) (x : Int)
    (h : x ≠ id) : (m.set id vi).find x = m.find x := by
  unfold DepMap.set DepMap.find
  simp [Finset.mem_insert, h, Function.update_noteq h]

theorem DepMap.find_setCounter (m : DepMap) (id : Int) (c : Int) (x : Int) :
    (m.setCounter id c).find x =
      if x = id then { m.find id with counter := c } else m.find x := by
  unfold DepMap.setCounter
  by_cases hx : x = id
  · subst hx; simp [DepMap.find_set_self]
  · simp [hx, DepMap.find_set_ne _ _ _ _ hx]

theorem DepMap.keys_setCounter (m : DepMap) (id : Int) (c : Int) (h : id ∈ m.keys) :
    (m.setCounter id c).keys = m.keys := by
  unfold DepMap.setCounter
  rw [DepMap.keys_set, Finset.insert_eq_self.mpr h]

theorem DepMap.find_dependsOn_subset_univIds (m : DepMap) (id : Int) :
    (m.find id).dependsOn ⊆ m.univIds := by
  unfold DepMap.find DepMap.univIds
  by_cases hd : id ∈ m.keys
  · simp only [hd, if_true]
    intro x hx
    exact Finset.mem_union_right _ (Finset.mem_biUnion.mpr ⟨id, hd, hx⟩)
  · simp [hd, default]

theorem DepMap.keys_subset_univIds (m : DepMap) : m.keys ⊆ m.univIds :=
  Finset.subset_union_left

theorem DepMap.univIds_getOrInsert (m : DepMap) (d : Int) (hd : d ∈ m.univIds) :
    (m.getOrInsert d).univIds = m.univIds := by
  unfold DepMap.getOrInsert
  by_cases hk : d ∈ m.keys
  · simp [hk]
  · simp only [hk, if_false]
    unfold DepMap.univIds
    apply Finset.ext
    intro x
    simp only [Finset.mem_union, Finset.mem_insert, Finset.mem_biUnion]
    constructor
    · rintro (⟨rfl | hx⟩ | ⟨k, hk1, hk2⟩)
      · rcases Finset.mem_union.mp hd with h | h
        · exact Or.inl h
        · exact Or.inr (Finset.mem_biUnion.mp h)
      · exact Or.inl hx
      · rcases hk1 with rfl | hk1'
        · rw [Function.update_same] at hk2
          simp [default] at hk2
        · have hne : k ≠ d := by intro he; subst he; exact hk hk1'
          rw [Function.update_noteq hne] at hk2
          exact Or.inr ⟨k, hk1', hk2⟩
    · rintro (hx | ⟨k, hk1, hk2⟩)
      · exact Or.inl (Or.inr hx)
      · refine Or.inr ⟨k, Or.inr hk1, ?_⟩
        have hne : k ≠ d := by intro he; subst he; exact hk hk1
        rw [Function.update_noteq hne]
        exact hk2

/-! ## Lemmas about the predecessor worklist loop -/

theorem predProcessDeps_find (h : DepMap) (preds : Finset Int) (ds : List Int)
    (x : Int) : (predProcessDeps h preds ds).1.find x = h.find x := by
  induction ds generalizing h preds with
  | nil => simp [predProcessDeps]
  | cons d rest ih =>
    simp only [predProcessDeps]
    by_cases hd : d ∈ preds
    · simp only [hd, if_true]
      exact ih h preds
    · simp only [hd, if_false]
      rw [ih (h.getOrInsert d) (insert d preds)]
      exact DepMap.find_getOrInsert h d x

theorem predProcessDeps_preds (h : DepMap) (preds : Finset Int) (ds : List Int) :
    (predProcessDeps h preds ds).2.1 = preds ∪ (predProcessDeps h preds ds).2.2.toFinset := by
  induction ds generalizing h preds with
  | nil => simp [predProcessDeps]
  | cons d rest ih =>
    simp only [predProcessDeps]
    by_cases hd : d ∈ preds
    · simp only [hd, if_true]
      exact ih h preds
    · simp only [hd, if_false, List.toFinset_cons]
      rw [ih (h.getOrInsert d) (insert d preds)]
      ext x
      simp only [Finset.mem_union, Finset.mem_insert]
      tauto

theorem predProcessDeps_keys (h : DepMap) (preds : Finset Int) (ds : List Int) :
    (predProcessDeps h preds ds).1.keys = h.keys ∪ (predProcessDeps h preds ds).2.2.toFinset := by
  induction ds generalizing h preds with
  | nil => simp [predProcessDeps]
  | cons d rest ih =>
    simp only [predProcessDeps]
    by_cases hd : d ∈ preds
    · simp only [hd, if_true]
      exact ih h preds
    · simp only [hd, if_false, List.toFinset_cons]
      rw [ih (h.getOrInsert d) (insert d preds), DepMap.keys_getOrInsert]
      ext x
      simp only [Finset.mem_union, Finset.mem_insert]
      tauto

theorem predProcessDeps_new_not_mem (h : DepMap) (preds : Finset Int) (ds : List Int) :
    ∀ x ∈ (predProcessDeps h preds ds).2.2, x ∉ preds := by
  induction ds generalizing h preds with
  | nil => simp [predProcessDeps]
  | cons d rest ih =>
    simp only [predProcessDeps]
    by_cases hd : d ∈ preds
    · simp only [hd, if_true]
      exact ih h preds
    · simp only [hd, if_false]
      intro x hx
      rcases List.mem_cons.mp hx with rfl | hx'
      · exact hd
      · intro hxp
        exact ih (h.getOrInsert d) (insert d preds) x hx' (Finset.mem_insert_of_mem hxp)

theorem predProcessDeps_new_nodup (h : DepMap) (preds : Finset Int) (ds : List Int) :
    (predProcessDeps h preds ds).2.2.Nodup := by
  induction ds generalizing h preds with
  | nil => simp [predProcessDeps]
  | cons d rest ih =>
    simp only [predProcessDeps]
    by_cases hd : d ∈ preds
    · simp only [hd, if_true]
      exact ih h preds
    · simp only [hd, if_false]
      refine List.Nodup.cons ?_ (ih (h.getOrInsert d) (insert d preds))
      intro hmem
      exact predProcessDeps_new_not_mem (h.getOrInsert d) (insert d preds) rest d hmem
        (Finset.mem_insert_self d preds)

theorem predProcessDeps_new_subset (h : DepMap) (preds : Finset Int) (ds : List Int) :
    ∀ x ∈ (predProcessDeps h preds ds).2.2, x ∈ ds := by
  induction ds generalizing h preds with
  | nil => simp [predProcessDeps]
  | cons d rest ih =>
    simp only [predProcessDeps]
    by_cases hd : d ∈ preds
    · simp only [hd, if_true]
      intro x hx
      exact List.mem_cons_of_mem d (ih h preds x hx)
    · simp only [hd, if_false]
      intro x hx
      rcases List.mem_cons.mp hx with rfl | hx'
      · exact List.mem_cons_self x rest
      · exact List.mem_cons_of_mem d (ih (h.getOrInsert d) (insert d preds) x hx')

theorem predProcessDeps_cover (h : DepMap) (preds : Finset Int) (ds : List Int) :
    ∀ d ∈ ds, d ∈ (predProcessDeps h preds ds).2.1 := by
  induction ds generalizing h preds with
  | nil => simp
  | cons d rest ih =>
    intro x hx
    simp only [predProcessDeps]
    by_cases hd : d ∈ preds
    · simp only [hd, if_true]
      rcases List.mem_cons.mp hx with rfl | hx'
      · rw [predProcessDeps_preds]
        exact Finset.mem_union_left _ hd
      · exact ih h preds x hx'
    · simp only [hd, if_false]
      rcases List.mem_cons.mp hx with rfl | hx'
      · rw [predProcessDeps_preds]
        exact Finset.mem_union_left _ (Finset.mem_insert_self x preds)
      · exact ih (h.getOrInsert d) (insert d preds) x hx'

theorem predProcessDeps_univIds (h : DepMap) (preds : Finset Int) (ds : List Int)
    (hds : ∀ d ∈ ds, d ∈ h.univIds) :
    (predProcessDeps h preds ds).1.univIds = h.univIds := by
  induction ds generalizing h preds with
  | nil => simp [predProcessDeps]
  | cons d rest ih =>
    simp only [predProcessDeps]
    by_cases hd : d ∈ preds
    · simp only [hd, if_true]
      exact ih h preds fun x hx => hds x (List.mem_cons_of_mem d hx)
    · simp only [hd, if_false]
      have hdu : d ∈ h.univIds := hds d (List.mem_cons_self d rest)
      rw [ih (h.getOrInsert d) (insert d preds) ?_, DepMap.univIds_getOrInsert h d hdu]
      intro x hx
      rw [DepMap.univIds_getOrInsert h d hdu]
      exact hds x (List.mem_cons_of_mem d hx)

theorem predLoopFuel_find (fuel : Nat) (h : DepMap) (preds : Finset Int)
    (W : List Int) (x : Int) : (predLoopFuel fuel h preds W).1.find x = h.find x := by
  induction fuel generalizing h preds W with
  | zero => simp [predLoopFuel]
  | succ fuel ih =>
    match W with
    | [] => simp [predLoopFuel]
    | id :: rest =>
      simp only [predLoopFuel]
      rw [ih, predProcessDeps_find]

theorem predLoopFuel_mono (fuel : Nat) (h : DepMap) (preds : Finset Int)
    (W : List Int) : preds ⊆ (predLoopFuel fuel h preds W).2 := by
  induction fuel generalizing h preds W with
  | zero => simp [predLoopFuel]
  | succ fuel ih =>
    match W with
    | [] => simp [predLoopFuel]
    | id :: rest =>
      simp only [predLoopFuel]
      refine Finset.Subset.trans ?_ (ih _ _ _)
      rw [predProcessDeps_preds]
      exact Finset.subset_union_left

theorem predLoopFuel_keys (fuel : Nat) (h : DepMap) (preds : Finset Int)
    (W : List Int) :
    (predLoopFuel fuel h preds W).1.keys =
      h.keys ∪ ((predLoopFuel fuel h preds W).2 \ preds) := by
  induction fuel generalizing h preds W with
  | zero => simp [predLoopFuel]
  | succ fuel ih =>
    match W with
    | [] => simp [predLoopFuel]
    | id :: rest =>
      simp only [predLoopFuel]
      set ds := ascSort (h.find id).dependsOn with hds
      set t := predProcessDeps h preds ds with ht
      rw [ih]
      have hkeys : t.1.keys = h.keys ∪ t.2.2.toFinset := predProcessDeps_keys _ _ _
      have htp : t.2.1 = preds ∪ t.2.2.toFinset := predProcessDeps_preds _ _ _
      have hN1 : ∀ x ∈ t.2.2, x ∉ preds := predProcessDeps_new_not_mem _ _ _
      rw [hkeys, htp]
      have hN2 : t.2.2.toFinset ⊆
          (predLoopFuel fuel t.1 (preds ∪ t.2.2.toFinset) (rest ++ t.2.2)).2 :=
        Finset.Subset.trans Finset.subset_union_right (predLoopFuel_mono _ _ _ _)
      ext x
      simp only [Finset.mem_union, Finset.mem_sdiff, List.mem_toFinset]
      have hx1 : x ∈ t.2.2 → ¬ x ∈ preds := fun hx => hN1 x hx
      have hx2 : x ∈ t.2.2 →
          x ∈ (predLoopFuel fuel t.1 (preds ∪ t.2.2.toFinset) (rest ++ t.2.2)).2 :=
        fun hx => hN2 (List.mem_toFinset.mpr hx)
      by_cases hn : x ∈ t.2.2 <;> tauto

theorem predLoopFuel_sound (fuel : Nat) (h : DepMap) (preds : Finset Int)
    (W : List Int) (R : Int → Prop)
    (hclosed : ∀ a b, R a → b ∈ (h.find a).dependsOn → R b)
    (hW : ∀ x ∈ W, R x) (hp : ∀ x ∈ preds, R x) :
    ∀ x ∈ (predLoopFuel fuel h preds W).2, R x := by
  induction fuel generalizing h preds W with
  | zero =>
    simp only [predLoopFuel]
    exact hp
  | succ fuel ih =>
    match W with
    | [] =>
      simp only [predLoopFuel]
      exact hp
    | id :: rest =>
      simp only [predLoopFuel]
      have hid : R id := hW id (List.mem_cons_self id rest)
      have hN : ∀ x ∈ (predProcessDeps h preds
          (ascSort (h.find id).dependsOn)).2.2, R x := by
        intro x hx
        have hxds := predProcessDeps_new_subset _ _ _ x hx
        exact hclosed id x hid ((ascSort_mem _ _).mp hxds)
      refine ih _ _ _ ?_ ?_ ?_
      · intro a b ha hb
        rw [predProcessDeps_find] at hb
        exact hclosed a b ha hb
      · intro x hx
        rcases List.mem_append.mp hx with hx | hx
        · exact hW x (List.mem_cons_of_mem id hx)
        · exact hN x hx
      · intro x hx
        rw [predProcessDeps_preds] at hx
        rcases Finset.mem_union.mp hx with hx | hx
        · exact hp x hx
        · exact hN x (List.mem_toFinset.mp hx)

theorem predLoopFuel_closed (fuel : Nat) (h : DepMap) (preds : Finset Int)
    (W : List Int)
    (hfuel : 2 * (h.univIds \ preds).card + W.length < fuel)
    (hWp : ∀ x ∈ W, x ∈ preds)
    (hfront : ∀ x ∈ preds, (∀ d ∈ (h.find x).dependsOn, d ∈ preds) ∨ x ∈ W) :
    ∀ x ∈ (predLoopFuel fuel h preds W).2,
      ∀ d ∈ (h.find x).dependsOn, d ∈ (predLoopFuel fuel h preds W).2 := by
  induction fuel generalizing h preds W with
  | zero => omega
  | succ fuel ih =>
    match W with
    | [] =>
      simp only [predLoopFuel]
      intro x hx d hd
      rcases hfront x hx with hc | hc
      · exact hc d hd
      · exact absurd hc (List.not_mem_nil x)
    | id :: rest =>
      simp only [predLoopFuel]
      set ds := ascSort (h.find id).dependsOn with hds
      set t := predProcessDeps h preds ds with ht
      have hNsub : ∀ x ∈ t.2.2, x ∈ ds := predProcessDeps_new_subset _ _ _
      have hNnp : ∀ x ∈ t.2.2, x ∉ preds := predProcessDeps_new_not_mem _ _ _
      have hNnd : t.2.2.Nodup := predProcessDeps_new_nodup _ _ _
      have htp : t.2.1 = preds ∪ t.2.2.toFinset := predProcessDeps_preds _ _ _
      have htf : ∀ x, t.1.find x = h.find x := predProcessDeps_find _ _ _
      have hdsu : ∀ d ∈ ds, d ∈ h.univIds := by
        intro d hd
        exact DepMap.find_dependsOn_subset_univIds h id ((ascSort_mem _ _).mp hd)
      have htu : t.1.univIds = h.univIds := predProcessDeps_univIds _ _ _ hdsu
      have hNfin : t.2.2.toFinset ⊆ h.univIds \ preds := by
        intro x hx
        have hx' := List.mem_toFinset.mp hx
        exact Finset.mem_sdiff.mpr ⟨hdsu x (hNsub x hx'), hNnp x hx'⟩
      have hsd : h.univIds \ t.2.1 = (h.univIds \ preds) \ t.2.2.toFinset := by
        rw [htp]
        ext y
        simp only [Finset.mem_sdiff, Finset.mem_union]
        tauto
      have hcard : (h.univIds \ t.2.1).card =
          (h.univIds \ preds).card - t.2.2.length := by
        rw [hsd, Finset.card_sdiff hNfin, List.toFinset_card_of_nodup hNnd]
      have hlen : t.2.2.length ≤ (h.univIds \ preds).card := by
        calc t.2.2.length = t.2.2.toFinset.card :=
              (List.toFinset_card_of_nodup hNnd).symm
          _ ≤ _ := Finset.card_le_card hNfin
      have hmain := ih t.1 t.2.1 (rest ++ t.2.2) ?_ ?_ ?_
      · intro x hx d hd
        rw [← htf x] at hd
        exact hmain x hx d hd
      · rw [htu, hcard]
        simp only [List.length_append]
        simp only [List.length_cons] at hfuel
        omega
      · intro x hx
        rw [htp]
        rcases List.mem_append.mp hx with hx | hx
        · exact Finset.mem_union_left _ (hWp x (List.mem_cons_of_mem id hx))
        · exact Finset.mem_union_right _ (List.mem_toFinset.mpr hx)
      · intro x hx
        rw [htf x, htp]
        rcases Finset.mem_union.mp (htp ▸ hx) with hxp | hxn
        · rcases hfront x hxp with hc | hc
          · exact Or.inl fun d hd => Finset.mem_union_left _ (hc d hd)
          · rcases List.mem_cons.mp hc with rfl | hc'
            · refine Or.inl fun d hd => ?_
              have : d ∈ ds := (ascSort_mem _ _).mpr hd
              have := predProcessDeps_cover h preds ds d this
              rw [htp] at this
              exact this
            · exact Or.inr (List.mem_append_left _ hc')
        · exact Or.inr (List.mem_append_right _ (List.mem_toFinset.mp hxn))

theorem predInitFold_find (dvs : List Variable) (m0 : DepMap) (p0 : Finset Int)
    (W0 : List Int) (x : Int) :
    (dvs.foldl (fun (s : DepMap × Finset Int × List Int) v =>
      (s.1.getOrInsert v.id, insert v.id s.2.1, s.2.2 ++ [v.id])) (m0, p0, W0)).1.find x =
      m0.find x := by
  induction dvs generalizing m0 p0 W0 with
  | nil => simp
  | cons v rest ih =>
    simp only [List.foldl_cons]
    rw [ih, DepMap.find_getOrInsert]

theorem predInitFold_keys (dvs : List Variable) (m0 : DepMap) (p0 : Finset Int)
    (W0 : List Int) :
    (dvs.foldl (fun (s : DepMap × Finset Int × List Int) v =>
      (s.1.getOrInsert v.id, insert v.id s.2.1, s.2.2 ++ [v.id])) (m0, p0, W0)).1.keys =
      m0.keys ∪ (dvs.map Variable.id).toFinset := by
  induction dvs generalizing m0 p0 W0 with
  | nil => simp
  | cons v rest ih =>
    simp only [List.foldl_cons, List.map_cons, List.toFinset_cons]
    rw [ih, DepMap.keys_getOrInsert]
    ext x
    simp only [Finset.mem_union, Finset.mem_insert]
    tauto

theorem predInitFold_preds (dvs : List Variable) (m0 : DepMap) (p0 : Finset Int)
    (W0 : List Int) :
    (dvs.foldl (fun (s : DepMap × Finset Int × List Int) v =>
      (s.1.getOrInsert v.id, insert v.id s.2.1, s.2.2 ++ [v.id])) (m0, p0, W0)).2.1 =
      p0 ∪ (dvs.map Variable.id).toFinset := by
  induction dvs generalizing m0 p0 W0 with
  | nil => simp
  | cons v rest ih =>
    simp only [List.foldl_cons, List.map_cons, List.toFinset_cons]
    rw [ih]
    ext x
    simp only [Finset.mem_union, Finset.mem_insert]
    tauto

theorem predInitFold_working (dvs : List Variable) (m0 : DepMap) (p0 : Finset Int)
    (W0 : List Int) :
    (dvs.foldl (fun (s : DepMap × Finset Int × List Int) v =>
      (s.1.getOrInsert v.id, insert v.id s.2.1, s.2.2 ++ [v.id])) (m0, p0, W0)).2.2 =
      W0 ++ dvs.map Variable.id := by
  induction dvs generalizing m0 p0 W0 with
  | nil => simp
  | cons v rest ih =>
    simp only [List.foldl_cons, List.map_cons]
    rw [ih]
    simp

theorem predInit_find (m : DepMap) (dvs : List Variable) (x : Int) :
    (predInit m dvs).1.find x = m.find x := by
  rw [predInit, predInitFold_find]

theorem predInit_keys (m : DepMap) (dvs : List Variable) :
    (predInit m dvs).1.keys = m.keys ∪ (dvs.map Variable.id).toFinset := by
  rw [predInit, predInitFold_keys]

theorem predInit_preds (m : DepMap) (dvs : List Variable) :
    (predInit m dvs).2.1 = (dvs.map Variable.id).toFinset := by
  rw [predInit, predInitFold_preds]
  exact Finset.empty_union _

theorem predInit_working (m : DepMap) (dvs : List Variable) :
    (predInit m dvs).2.2 = dvs.map Variable.id := by
  rw [predInit, predInitFold_working]
  exact List.nil_append _

theorem makeUpdatePredecessors_find (m : DepMap) (dvs : List Variable) (x : Int) :
    (makeUpdatePredecessors m dvs).1.find x = m.find x := by
  unfold makeUpdatePredecessors
  rw [predLoopFuel_find, predInit_find]

theorem makeUpdatePredecessors_mono (m : DepMap) (dvs : List Variable) :
    (predInit m dvs).2.1 ⊆ (makeUpdatePredecessors m dvs).2 := by
  unfold makeUpdatePredecessors
  exact predLoopFuel_mono _ _ _ _

theorem makeUpdatePredecessors_keys (m : DepMap) (dvs : List Variable) :
    (makeUpdatePredecessors m dvs).1.keys = m.keys ∪ (makeUpdatePredecessors m dvs).2 := by
  have hkeys : (makeUpdatePredecessors m dvs).1.keys =
      (predInit m dvs).1.keys ∪ ((makeUpdatePredecessors m dvs).2 \ (predInit m dvs).2.1) := by
    unfold makeUpdatePredecessors
    exact predLoopFuel_keys _ _ _ _
  have hmono := makeUpdatePredecessors_mono m dvs
  rw [hkeys, predInit_keys, predInit_preds]
  rw [predInit_preds] at hmono
  ext x
  simp only [Finset.mem_union, Finset.mem_sdiff]
  constructor
  · rintro ((hk | hi) | ⟨hp, _⟩)
    · exact Or.inl hk
    · exact Or.inr (hmono hi)
    · exact Or.inr hp
  · rintro (hk | hp)
    · exact Or.inl (Or.inl hk)
    · by_cases hi : x ∈ (dvs.map Variable.id).toFinset
      · exact Or.inl (Or.inr hi)
      · exact Or.inr ⟨hp, hi⟩

theorem makeUpdatePredecessors_eq_loop (m : DepMap) (dvs : List Variable) :
    makeUpdatePredecessors m dvs =
      predLoopFuel (2 * (predInit m dvs).1.univIds.card + (predInit m dvs).2.2.length + 1)
        (predInit m dvs).1 (predInit m dvs).2.1 (predInit m dvs).2.2 := rfl

theorem makeUpdatePredecessors_mem (m : DepMap) (dvs : List Variable) (x : Int) :
    x ∈ (makeUpdatePredecessors m dvs).2 ↔ requiredBy m dvs x := by
  constructor
  · intro hx
    rw [makeUpdatePredecessors_eq_loop] at hx
    refine predLoopFuel_sound _ _ _ _ (requiredBy m dvs) ?_ ?_ ?_ x hx
    · intro a b ha hb
      rw [predInit_find] at hb
      obtain ⟨v, hv, hrtg⟩ := ha
      exact ⟨v, hv, Relation.ReflTransGen.tail hrtg hb⟩
    · intro y hy
      rw [predInit_working] at hy
      obtain ⟨v, hv, hvid⟩ := List.mem_map.mp hy
      exact ⟨v, hv, hvid ▸ Relation.ReflTransGen.refl⟩
    · intro y hy
      rw [predInit_preds] at hy
      obtain ⟨v, hv, hvid⟩ := List.mem_map.mp (List.mem_toFinset.mp hy)
      exact ⟨v, hv, hvid ▸ Relation.ReflTransGen.refl⟩
  · rintro ⟨v, hv, hrtg⟩
    have hcl : ∀ y ∈ (makeUpdatePredecessors m dvs).2,
        ∀ d ∈ (m.find y).dependsOn, d ∈ (makeUpdatePredecessors m dvs).2 := by
      rw [makeUpdatePredecessors_eq_loop]
      intro y hy d hd
      refine predLoopFuel_closed _ _ _ _ ?_ ?_ ?_ y hy d ?_
      · have := Finset.card_le_card
          (Finset.sdiff_subset (s := (predInit m dvs).1.univIds) (t := (predInit m dvs).2.1))
        omega
      · intro z hz
        rw [predInit_working] at hz
        rw [predInit_preds]
        exact List.mem_toFinset.mpr hz
      · intro z hz
        rw [predInit_preds] at hz
        rw [predInit_working]
        exact Or.inr (List.mem_toFinset.mp hz)
      · rw [predInit_find]
        exact hd
    have hsrc : v.id ∈ (makeUpdatePredecessors m dvs).2 := by
      refine makeUpdatePredecessors_mono m dvs ?_
      rw [predInit_preds]
      exact List.mem_toFinset.mpr (List.mem_map.mpr ⟨v, hv, rfl⟩)
    clear hv
    induction hrtg with
    | refl => exact hsrc
    | tail h1 h2 ih => exact hcl _ ih _ h2

/-! ## Lemmas about the follower worklist loop -/

theorem follProcessMods_foll (preds foll : Finset Int) (ds : List Int) :
    (follProcessMods preds foll ds).1 = foll ∪ (follProcessMods preds foll ds).2.toFinset := by
  induction ds generalizing foll with
  | nil => simp [follProcessMods]
  | cons d rest ih =>
    simp only [follProcessMods]
    by_cases hd : d ∈ foll ∨ d ∉ preds
    · simp only [hd, if_true]
      exact ih foll
    · simp only [hd, if_false, List.toFinset_cons]
      rw [ih (insert d foll)]
      ext x
      simp only [Finset.mem_union, Finset.mem_insert]
      tauto

theorem follProcessMods_new_not_mem (preds foll : Finset Int) (ds : List Int) :
    ∀ x ∈ (follProcessMods preds foll ds).2, x ∉ foll := by
  induction ds generalizing foll with
  | nil => simp [follProcessMods]
  | cons d rest ih =>
    simp only [follProcessMods]
    by_cases hd : d ∈ foll ∨ d ∉ preds
    · simp only [hd, if_true]
      exact ih foll
    · simp only [hd, if_false]
      push_neg at hd
      intro x hx
      rcases List.mem_cons.mp hx with rfl | hx'
      · exact hd.1
      · intro hxf
        exact ih (insert d foll) x hx' (Finset.mem_insert_of_mem hxf)

theorem follProcessMods_new_in_preds (preds foll : Finset Int) (ds : List Int) :
    ∀ x ∈ (follProcessMods preds foll ds).2, x ∈ preds := by
  induction ds generalizing foll with
  | nil => simp [follProcessMods]
  | cons d rest ih =>
    simp only [follProcessMods]
    by_cases hd : d ∈ foll ∨ d ∉ preds
    · simp only [hd, if_true]
      exact ih foll
    · simp only [hd, if_false]
      push_neg at hd
      intro x hx
      rcases List.mem_cons.mp hx with rfl | hx'
      · exact hd.2
      · exact ih (insert d foll) x hx'

theorem follProcessMods_new_nodup (preds foll : Finset Int) (ds : List Int) :
    (follProcessMods preds foll ds).2.Nodup := by
  induction ds generalizing foll with
  | nil => simp [follProcessMods]
  | cons d rest ih =>
    simp only [follProcessMods]
    by_cases hd : d ∈ foll ∨ d ∉ preds
    · simp only [hd, if_true]
      exact ih foll
    · simp only [hd, if_false]
      refine List.Nodup.cons ?_ (ih (insert d foll))
      intro hmem
      exact follProcessMods_new_not_mem preds (insert d foll) rest d hmem
        (Finset.mem_insert_self d foll)

theorem follProcessMods_new_subset (preds foll : Finset Int) (ds : List Int) :
    ∀ x ∈ (follProcessMods preds foll ds).2, x ∈ ds := by
  induction ds generalizing foll with
  | nil => simp [follProcessMods]
  | cons d rest ih =>
    simp only [follProcessMods]
    by_cases hd : d ∈ foll ∨ d ∉ preds
    · simp only [hd, if_true]
      intro x hx
      exact List.mem_cons_of_mem d (ih foll x hx)
    · simp only [hd, if_false]
      intro x hx
      rcases List.mem_cons.mp hx with rfl | hx'
      · exact List.mem_cons_self x rest
      · exact List.mem_cons_of_mem d (ih (insert d foll) x hx')

theorem follProcessMods_cover (preds foll : Finset Int) (ds : List Int) :
    ∀ d ∈ ds, d ∈ preds → d ∈ (follProcessMods preds foll ds).1 := by
  induction ds generalizing foll with
  | nil => simp
  | cons d rest ih =>
    intro x hx hxp
    simp only [follProcessMods]
    by_cases hd : d ∈ foll ∨ d ∉ preds
    · simp only [hd, if_true]
      rcases List.mem_cons.mp hx with rfl | hx'
      · rcases hd with hd | hd
        · rw [follProcessMods_foll]
          exact Finset.mem_union_left _ hd
        · exact absurd hxp hd
      · exact ih foll x hx' hxp
    · simp only [hd, if_false]
      rcases List.mem_cons.mp hx with rfl | hx'
      · rw [follProcessMods_foll]
        exact Finset.mem_union_left _ (Finset.mem_insert_self x foll)
      · exact ih (insert d foll) x hx' hxp

theorem follLoopFuel_mono (fuel : Nat) (h : DepMap) (preds foll : Finset Int)
    (W : List Int) : foll ⊆ follLoopFuel fuel h preds foll W := by
  induction fuel generalizing foll W with
  | zero => simp [follLoopFuel]
  | succ fuel ih =>
    match W with
    | [] => simp [follLoopFuel]
    | id :: rest =>
      simp only [follLoopFuel]
      refine Finset.Subset.trans ?_ (ih _ _)
      rw [follProcessMods_foll]
      exact Finset.subset_union_left

theorem follLoopFuel_sub_preds (fuel : Nat) (h : DepMap) (preds foll : Finset Int)
    (W : List Int) (hfol : foll ⊆ preds) :
    follLoopFuel fuel h preds foll W ⊆ preds := by
  induction fuel generalizing foll W with
  | zero => simpa [follLoopFuel] using hfol
  | succ fuel ih =>
    match W with
    | [] => simpa [follLoopFuel] using hfol
    | id :: rest =>
      simp only [follLoopFuel]
      refine ih _ _ ?_
      rw [follProcessMods_foll]
      intro x hx
      rcases Finset.mem_union.mp hx with hx | hx
      · exact hfol hx
      · exact follProcessMods_new_in_preds _ _ _ x (List.mem_toFinset.mp hx)

theorem follLoopFuel_sound (fuel : Nat) (h : DepMap) (preds foll : Finset Int)
    (W : List Int) (R : Int → Prop)
    (hclosed : ∀ a b, R a → b ∈ (h.find a).modifies → b ∈ preds → R b)
    (hW : ∀ x ∈ W, R x) (hf : ∀ x ∈ foll, R x) :
    ∀ x ∈ follLoopFuel fuel h preds foll W, R x := by
  induction fuel generalizing foll W with
  | zero =>
    simp only [follLoopFuel]
    exact hf
  | succ fuel ih =>
    match W with
    | [] =>
      simp only [follLoopFuel]
      exact hf
    | id :: rest =>
      simp only [follLoopFuel]
      have hid : R id := hW id (List.mem_cons_self id rest)
      have hN : ∀ x ∈ (follProcessMods preds foll
          (ascSort (h.find id).modifies)).2, R x := by
        intro x hx
        have hxds := follProcessMods_new_subset _ _ _ x hx
        have hxp := follProcessMods_new_in_preds _ _ _ x hx
        exact hclosed id x hid ((ascSort_mem _ _).mp hxds) hxp
      refine ih _ _ ?_ ?_
      · intro x hx
        rcases List.mem_append.mp hx with hx | hx
        · exact hW x (List.mem_cons_of_mem id hx)
        · exact hN x hx
      · intro x hx
        rw [follProcessMods_foll] at hx
        rcases Finset.mem_union.mp hx with hx | hx
        · exact hf x hx
        · exact hN x (List.mem_toFinset.mp hx)

theorem follLoopFuel_closed (fuel : Nat) (h : DepMap) (preds foll : Finset Int)
    (W : List Int)
    (hfuel : 2 * (preds \ foll).card + W.length < fuel)
    (hWf : ∀ x ∈ W, x ∈ foll)
    (hfront : ∀ x ∈ foll, (∀ d ∈ (h.find x).modifies, d ∈ preds → d ∈ foll) ∨ x ∈ W) :
    ∀ x ∈ follLoopFuel fuel h preds foll W,
      ∀ d ∈ (h.find x).modifies, d ∈ preds →
        d ∈ follLoopFuel fuel h preds foll W := by
  induction fuel generalizing foll W with
  | zero => omega
  | succ fuel ih =>
    match W with
    | [] =>
      simp only [follLoopFuel]
      intro x hx d hd hdp
      rcases hfront x hx with hc | hc
      · exact hc d hd hdp
      · exact absurd hc (List.not_mem_nil x)
    | id :: rest =>
      simp only [follLoopFuel]
      set ds := ascSort (h.find id).modifies with hds
      set t := follProcessMods preds foll ds with ht
      have hNsub : ∀ x ∈ t.2, x ∈ ds := follProcessMods_new_subset _ _ _
      have hNnf : ∀ x ∈ t.2, x ∉ foll := follProcessMods_new_not_mem _ _ _
      have hNp : ∀ x ∈ t.2, x ∈ preds := follProcessMods_new_in_preds _ _ _
      have hNnd : t.2.Nodup := follProcessMods_new_nodup _ _ _
      have htf : t.1 = foll ∪ t.2.toFinset := follProcessMods_foll _ _ _
      have hNfin : t.2.toFinset ⊆ preds \ foll := by
        intro x hx
        have hx' := List.mem_toFinset.mp hx
        exact Finset.mem_sdiff.mpr ⟨hNp x hx', hNnf x hx'⟩
      have hsd : preds \ t.1 = (preds \ foll) \ t.2.toFinset := by
        rw [htf]
        ext y
        simp only [Finset.mem_sdiff, Finset.mem_union]
        tauto
      have hcard : (preds \ t.1).card = (preds \ foll).card - t.2.length := by
        rw [hsd, Finset.card_sdiff hNfin, List.toFinset_card_of_nodup hNnd]
      have hlen : t.2.length ≤ (preds \ foll).card := by
        calc t.2.length = t.2.toFinset.card := (List.toFinset_card_of_nodup hNnd).symm
          _ ≤ _ := Finset.card_le_card hNfin
      have hmain := ih t.1 (rest ++ t.2) ?_ ?_ ?_
      · exact hmain
      · rw [hcard]
        simp only [List.length_append]
        simp only [List.length_cons] at hfuel
        omega
      · intro x hx
        rw [htf]
        rcases List.mem_append.mp hx with hx | hx
        · exact Finset.mem_union_left _ (hWf x (List.mem_cons_of_mem id hx))
        · exact Finset.mem_union_right _ (List.mem_toFinset.mpr hx)
      · intro x hx
        rw [htf]
        rcases Finset.mem_union.mp (htf ▸ hx) with hxf | hxn
        · rcases hfront x hxf with hc | hc
          · exact Or.inl fun d hd hdp => Finset.mem_union_left _ (hc d hd hdp)
          · rcases List.mem_cons.mp hc with rfl | hc'
            · refine Or.inl fun d hd hdp => ?_
              have hdds : d ∈ ds := (ascSort_mem _ _).mpr hd
              have := follProcessMods_cover preds foll ds d hdds hdp
              rw [htf] at this
              exact this
            · exact Or.inr (List.mem_append_left _ hc')
        · exact Or.inr (List.mem_append_right _ (List.mem_toFinset.mp hxn))

theorem follInitFold_working_mem (dvs : List Variable) (preds : Finset Int)
    (f0 : Finset Int) (W0 : List Int) (y : Int) :
    (y ∈ (dvs.foldl (fun (s : Finset Int × List Int) v =>
      if v.id ∈ preds then (insert v.id s.1, s.2 ++ [v.id]) else s) (f0, W0)).2) ↔
      y ∈ W0 ∨ ((∃ v ∈ dvs, v.id = y) ∧ y ∈ preds) := by
  induction dvs generalizing f0 W0 with
  | nil => simp
  | cons v rest ih =>
    simp only [List.foldl_cons]
    by_cases hv : v.id ∈ preds
    · simp only [hv, if_true]
      rw [ih]
      simp only [List.mem_append, List.mem_cons, List.not_mem_nil, or_false]
      constructor
      · rintro ((hy | rfl) | ⟨⟨w, hw, rfl⟩, hp⟩)
        · exact Or.inl hy
        · exact Or.inr ⟨⟨v, Or.inl rfl, rfl⟩, hv⟩
        · exact Or.inr ⟨⟨w, Or.inr hw, rfl⟩, hp⟩
      · rintro (hy | ⟨⟨w, hw | hw, rfl⟩, hp⟩)
        · exact Or.inl (Or.inl hy)
        · subst hw
          exact Or.inl (Or.inr rfl)
        · exact Or.inr ⟨⟨w, hw, rfl⟩, hp⟩
    · simp only [hv, if_false]
      rw [ih]
      simp only [List.mem_cons]
      constructor
      · rintro (hy | ⟨⟨w, hw, rfl⟩, hp⟩)
        · exact Or.inl hy
        · exact Or.inr ⟨⟨w, Or.inr hw, rfl⟩, hp⟩
      · rintro (hy | ⟨⟨w, hw | hw, rfl⟩, hp⟩)
        · exact Or.inl hy
        · subst hw
          exact absurd hp hv
        · exact Or.inr ⟨⟨w, hw, rfl⟩, hp⟩

theorem follInitFold_foll_mem (dvs : List Variable) (preds : Finset Int)
    (f0 : Finset Int) (W0 : List Int) (y : Int) :
    (y ∈ (dvs.foldl (fun (s : Finset Int × List Int) v =>
      if v.id ∈ preds then (insert v.id s.1, s.2 ++ [v.id]) else s) (f0, W0)).1) ↔
      y ∈ f0 ∨ ((∃ v ∈ dvs, v.id = y) ∧ y ∈ preds) := by
  induction dvs generalizing f0 W0 with
  | nil => simp
  | cons v rest ih =>
    simp only [List.foldl_cons]
    by_cases hv : v.id ∈ preds
    · simp only [hv, if_true]
      rw [ih]
      simp only [Finset.mem_insert, List.mem_cons]
      constructor
      · rintro ((rfl | hy) | ⟨⟨w, hw, rfl⟩, hp⟩)
        · exact Or.inr ⟨⟨v, Or.inl rfl, rfl⟩, hv⟩
        · exact Or.inl hy
        · exact Or.inr ⟨⟨w, Or.inr hw, rfl⟩, hp⟩
      · rintro (hy | ⟨⟨w, hw | hw, rfl⟩, hp⟩)
        · exact Or.inl (Or.inr hy)
        · subst hw
          exact Or.inl (Or.inl rfl)
        · exact Or.inr ⟨⟨w, hw, rfl⟩, hp⟩
    · simp only [hv, if_false]
      rw [ih]
      simp only [List.mem_cons]
      constructor
      · rintro (hy | ⟨⟨w, hw, rfl⟩, hp⟩)
        · exact Or.inl hy
        · exact Or.inr ⟨⟨w, Or.inr hw, rfl⟩, hp⟩
      · rintro (hy | ⟨⟨w, hw | hw, rfl⟩, hp⟩)
        · exact Or.inl hy
        · subst hw
          exact absurd hp hv
        · exact Or.inr ⟨⟨w, hw, rfl⟩, hp⟩

theorem follInit_working_mem (dvs : List Variable) (preds : Finset Int) (y : Int) :
    y ∈ (follInit dvs preds).2 ↔ (∃ v ∈ dvs, v.id = y) ∧ y ∈ preds := by
  rw [follInit, follInitFold_working_mem]
  simp

theorem follInit_foll_mem (dvs : List Variable) (preds : Finset Int) (y : Int) :
    y ∈ (follInit dvs preds).1 ↔ (∃ v ∈ dvs, v.id = y) ∧ y ∈ preds := by
  rw [follInit, follInitFold_foll_mem]
  simp

theorem makeUpdateFollowers_eq_loop (h : DepMap) (inds : List Variable)
    (preds : Finset Int) :
    makeUpdateFollowers h inds preds =
      follLoopFuel (2 * preds.card + (follInit inds preds).2.length + 1) h preds
        (follInit inds preds).1 (follInit inds preds).2 := rfl

theorem makeUpdateFollowers_sub (h : DepMap) (inds : List Variable)
    (preds : Finset Int) : makeUpdateFollowers h inds preds ⊆ preds := by
  rw [makeUpdateFollowers_eq_loop]
  refine follLoopFuel_sub_preds _ _ _ _ _ ?_
  intro x hx
  exact ((follInit_foll_mem inds preds x).mp hx).2

theorem makeUpdateFollowers_mem (h : DepMap) (inds : List Variable)
    (preds : Finset Int) (x : Int) :
    x ∈ makeUpdateFollowers h inds preds ↔
      ∃ v ∈ inds, v.id ∈ preds ∧
        Relation.ReflTransGen (fun a b => b ∈ (h.find a).modifies ∧ b ∈ preds) v.id x := by
  have hsrc : ∀ y, y ∈ (follInit inds preds).2 →
      ∃ v ∈ inds, v.id ∈ preds ∧
        Relation.ReflTransGen (fun a b => b ∈ (h.find a).modifies ∧ b ∈ preds) v.id y := by
    intro y hy
    obtain ⟨⟨v, hv, hvid⟩, hp⟩ := (follInit_working_mem inds preds y).mp hy
    exact ⟨v, hv, hvid ▸ hp, hvid ▸ Relation.ReflTransGen.refl⟩
  constructor
  · intro hx
    rw [makeUpdateFollowers_eq_loop] at hx
    refine follLoopFuel_sound _ _ _ _ _
      (fun y => ∃ v ∈ inds, v.id ∈ preds ∧
        Relation.ReflTransGen (fun a b => b ∈ (h.find a).modifies ∧ b ∈ preds) v.id y)
      ?_ ?_ ?_ x hx
    · rintro a b ⟨v, hv, hvp, hrtg⟩ hb hbp
      exact ⟨v, hv, hvp, Relation.ReflTransGen.tail hrtg ⟨hb, hbp⟩⟩
    · exact hsrc
    · intro y hy
      refine hsrc y ?_
      rw [follInit_working_mem]
      exact (follInit_foll_mem inds preds y).mp hy
  · rintro ⟨v, hv, hvp, hrtg⟩
    have hcl : ∀ y ∈ makeUpdateFollowers h inds preds,
        ∀ d ∈ (h.find y).modifies, d ∈ preds → d ∈ makeUpdateFollowers h inds preds := by
      rw [makeUpdateFollowers_eq_loop]
      refine follLoopFuel_closed _ _ _ _ _ ?_ ?_ ?_
      · have := Finset.card_le_card
          (Finset.sdiff_subset (s := preds) (t := (follInit inds preds).1))
        omega
      · intro z hz
        rw [follInit_foll_mem]
        exact (follInit_working_mem inds preds z).mp hz
      · intro z hz
        refine Or.inr ?_
        rw [follInit_working_mem]
        exact (follInit_foll_mem inds preds z).mp hz
    have hv0 : v.id ∈ makeUpdateFollowers h inds preds := by
      rw [makeUpdateFollowers_eq_loop]
      refine follLoopFuel_mono _ _ _ _ _ ?_
      rw [follInit_foll_mem]
      exact ⟨⟨v, hv, rfl⟩, hvp⟩
    clear hv hvp
    induction hrtg with
    | refl => exact hv0
    | tail h1 h2 ih => exact hcl _ ih _ h2.1 h2.2

/-! ## Lemmas about the topological-order loop -/

theorem agreeButCounter_setCounter (a b : DepMap) (id : Int) (c : Int)
    (hid : id ∈ a.keys) (h : agreeButCounter a b) :
    agreeButCounter (a.setCounter id c) b := by
  refine ⟨?_, fun x => ?_⟩
  · rw [DepMap.keys_setCounter a id c hid, h.1]
  · rw [DepMap.find_setCounter]
    by_cases hx : x = id
    · subst hx
      simpa using h.2 x
    · simp only [hx, if_false]
      exact h.2 x

theorem countersFold_agree (l : List Int) (acc : DepMap) (D : Finset Int)
    (hlk : ∀ x ∈ l, x ∈ acc.keys) :
    agreeButCounter
      (l.foldl (fun acc id =>
        acc.setCounter id ((((acc.find id).dependsOn ∩ D).card : Int))) acc) acc := by
  induction l generalizing acc with
  | nil => exact agreeButCounter_refl acc
  | cons id rest ih =>
    simp only [List.foldl_cons]
    have hid : id ∈ acc.keys := hlk id (List.mem_cons_self id rest)
    have hkeys : (acc.setCounter id ((((acc.find id).dependsOn ∩ D).card : Int))).keys =
        acc.keys := DepMap.keys_setCounter acc id _ hid
    refine agreeButCounter_trans (ih _ ?_) ?_
    · intro x hx
      rw [hkeys]
      exact hlk x (List.mem_cons_of_mem id hx)
    · exact agreeButCounter_setCounter acc acc id _ hid (agreeButCounter_refl acc)

theorem countersFold_counter (l : List Int) (acc : DepMap) (D : Finset Int)
    (hnd : l.Nodup) (hlk : ∀ x ∈ l, x ∈ acc.keys) :
    (∀ x ∈ l,
      ((l.foldl (fun acc id =>
        acc.setCounter id ((((acc.find id).dependsOn ∩ D).card : Int))) acc).find x).counter =
        ((((acc.find x).dependsOn ∩ D).card : Int))) ∧
    (∀ x, x ∉ l →
      ((l.foldl (fun acc id =>
        acc.setCounter id ((((acc.find id).dependsOn ∩ D).card : Int))) acc).find x).counter =
        (acc.find x).counter) := by
  induction l generalizing acc with
  | nil => exact ⟨by simp, fun x _ => rfl⟩
  | cons id rest ih =>
    simp only [List.foldl_cons]
    have hid : id ∈ acc.keys := hlk id (List.mem_cons_self id rest)
    set acc1 := acc.setCounter id ((((acc.find id).dependsOn ∩ D).card : Int)) with hacc1
    have hkeys : acc1.keys = acc.keys := DepMap.keys_setCounter acc id _ hid
    have hrk : ∀ x ∈ rest, x ∈ acc1.keys := by
      intro x hx
      rw [hkeys]
      exact hlk x (List.mem_cons_of_mem id hx)
    obtain ⟨ih1, ih2⟩ := ih acc1 (List.Nodup.of_cons hnd) hrk
    have hagree1 : ∀ x, (acc1.find x).dependsOn = (acc.find x).dependsOn := by
      intro x
      exact (agreeButCounter_setCounter acc acc id _ hid (agreeButCounter_refl acc)).2 x |>.1
    constructor
    · intro x hx
      rcases List.mem_cons.mp hx with rfl | hx'
      · have hnotin : x ∉ rest := (List.nodup_cons.mp hnd).1
        rw [ih2 x hnotin, hacc1, DepMap.find_setCounter]
        simp
      · rw [ih1 x hx', hagree1 x]
    · intro x hx
      have hx1 : x ∉ rest := fun hc => hx (List.mem_cons_of_mem id hc)
      have hx2 : x ≠ id := fun hc => hx (hc ▸ List.mem_cons_self id rest)
      rw [ih2 x hx1, hacc1, DepMap.find_setCounter]
      simp [hx2]

theorem initCounters_agree (h : DepMap) (D : Finset Int) (hD : D ⊆ h.keys) :
    agreeButCounter (initCounters h D) h := by
  unfold initCounters
  refine countersFold_agree _ _ _ ?_
  intro x hx
  exact hD ((ascSort_mem _ _).mp hx)

theorem initCounters_counter (h : DepMap) (D : Finset Int) (hD : D ⊆ h.keys) :
    ∀ x ∈ D, ((initCounters h D).find x).counter =
      ((((h.find x).dependsOn ∩ D).card : Int)) := by
  intro x hx
  unfold initCounters
  exact (countersFold_counter _ _ _ (ascSort_nodup _)
    (fun y hy => hD ((ascSort_mem _ _).mp hy))).1 x ((ascSort_mem _ _).mpr hx)

theorem decrFold_spec (ds : List Int) (h : DepMap) (D : Finset Int)
    (hnd : ds.Nodup)
    (hkeys : ∀ d ∈ ds, d ∈ D → d ∈ h.keys)
    (hpos : ∀ d ∈ ds, d ∈ D → 1 ≤ (h.find d).counter) :
    ∃ h2, decrFold h D ds = .ok h2 ∧ agreeButCounter h2 h ∧
      ∀ x, (h2.find x).counter =
        if x ∈ ds ∧ x ∈ D then (h.find x).counter - 1 else (h.find x).counter := by
  induction ds generalizing h with
  | nil =>
    refine ⟨h, rfl, agreeButCounter_refl h, fun x => ?_⟩
    simp
  | cons d rest ih =>
    by_cases hdD : d ∈ D
    · have hdk : d ∈ h.keys := hkeys d (List.mem_cons_self d rest) hdD
      have hd1 : 1 ≤ (h.find d).counter := hpos d (List.mem_cons_self d rest) hdD
      have hnotlt : ¬ ((h.find d).counter - 1 < 0) := by omega
      set h1 := h.setCounter d ((h.find d).counter - 1) with hh1
      have hkeys1 : h1.keys = h.keys := DepMap.keys_setCounter h d _ hdk
      have hfind1 : ∀ x, (h1.find x).counter =
          if x = d then (h.find d).counter - 1 else (h.find x).counter := by
        intro x
        rw [hh1, DepMap.find_setCounter]
        by_cases hx : x = d <;> simp [hx]
      have hkeysR : ∀ x ∈ rest, x ∈ D → x ∈ h1.keys := by
        intro x hx hxD
        rw [hkeys1]
        exact hkeys x (List.mem_cons_of_mem d hx) hxD
      have hposR : ∀ x ∈ rest, x ∈ D → 1 ≤ (h1.find x).counter := by
        intro x hx hxD
        rw [hfind1 x]
        have hxd : x ≠ d := by
          intro hc'
          subst hc'
          exact (List.nodup_cons.mp hnd).1 hx
        simp only [hxd, if_false]
        exact hpos x (List.mem_cons_of_mem d hx) hxD
      obtain ⟨h2, hok, hagree, hc⟩ := ih h1 (List.Nodup.of_cons hnd) hkeysR hposR
      refine ⟨h2, ?_, agreeButCounter_trans hagree
        (agreeButCounter_setCounter h h d _ hdk (agreeButCounter_refl h)), fun x => ?_⟩
      · unfold decrFold
        simp only [hdD, not_true_eq_false, if_false, hnotlt]
        exact hok
      · rw [hc x]
        by_cases hx : x = d
        · subst hx
          have hxnr : x ∉ rest := (List.nodup_cons.mp hnd).1
          simp only [hxnr, false_and, if_false, List.mem_cons, true_or, hdD, and_true,
            if_true]
          rw [hfind1 x]
          simp
        · rw [hfind1 x]
          simp only [hx, if_false, List.mem_cons, false_or]
    · obtain ⟨h2, hok, hagree, hc⟩ := ih h (List.Nodup.of_cons hnd)
        (fun x hx hxD => hkeys x (List.mem_cons_of_mem d hx) hxD)
        (fun x hx hxD => hpos x (List.mem_cons_of_mem d hx) hxD)
      refine ⟨h2, ?_, hagree, fun x => ?_⟩
      · unfold decrFold
        simp only [hdD, not_false_eq_true, if_true]
        exact hok
      · rw [hc x]
        by_cases hx : x ∈ rest
        · simp [hx, List.mem_cons]
        · by_cases hxd : x = d
          · subst hxd
            simp [hx, hdD]
          · simp [hx, hxd]

theorem decrFold_error (ds : List Int) (h : DepMap) (D : Finset Int)
    (e : SchnekError) (he : decrFold h D ds = .error e) : e = .assertFailed := by
  induction ds generalizing h with
  | nil => simp [decrFold] at he
  | cons d rest ih =>
    unfold decrFold at he
    by_cases hdD : d ∈ D
    · simp only [hdD, not_true_eq_false, if_false] at he
      by_cases hlt : (h.find d).counter - 1 < 0
      · simp only [hlt, if_true] at he
        exact (Except.error.injEq _ _).mp he |>.symm
      · simp only [hlt, if_false] at he
        exact ih _ he
    · simp only [hdD, not_false_eq_true, if_true] at he
      exact ih _ he

theorem orderLoopFuel_error (fuel : Nat) (h : DepMap) (D : Finset Int)
    (W : List Int) (acc : List (Int × Option Variable)) (e : SchnekError)
    (he : orderLoopFuel fuel h D W acc = .error e) : e = .assertFailed := by
  induction fuel generalizing h W acc with
  | zero => simp [orderLoopFuel] at he
  | succ fuel ih =>
    match W, he with
    | [], he => simp [orderLoopFuel] at he
    | w :: rest, he =>
      unfold orderLoopFuel at he
      split at he
      · exact ((Except.error.injEq _ _).mp he).symm
      · split at he
        · rename_i e2 hdecr
          have := decrFold_error _ _ _ _ hdecr
          subst this
          exact ((Except.error.injEq _ _).mp he).symm
        · exact ih _ _ _ he

theorem orderLoopFuel_ok_ids (fuel : Nat) (h : DepMap) (D : Finset Int)
    (W : List Int) (acc : List (Int × Option Variable)) (h2 : DepMap)
    (L : List (Int × Option Variable))
    (hfuel : W.length < fuel)
    (hnd : W.Nodup)
    (hnd2 : (acc.map Prod.fst).Nodup)
    (hdisj : ∀ x ∈ W, x ∉ acc.map Prod.fst)
    (hWE : ∀ x, (x ∈ W ∨ x ∈ acc.map Prod.fst) ↔ x ∈ D)
    (hok : orderLoopFuel fuel h D W acc = .ok (h2, L)) :
    (L.map Prod.fst).Nodup ∧ (∀ x, x ∈ L.map Prod.fst ↔ x ∈ D) ∧
      ∃ tail, L = acc ++ tail := by
  induction fuel generalizing h W acc with
  | zero => omega
  | succ fuel ih =>
    match W, hok with
    | [], hok =>
      simp only [orderLoopFuel] at hok
      obtain ⟨rfl, rfl⟩ : h = h2 ∧ acc = L := by
        have := (Except.ok.injEq _ _).mp hok
        exact ⟨congrArg Prod.fst this, congrArg Prod.snd this⟩
      refine ⟨hnd2, fun x => ?_, [], (List.append_nil acc).symm⟩
      rw [← hWE x]
      simp
    | w :: rest, hok =>
      unfold orderLoopFuel at hok
      split at hok
      · exact absurd hok (by simp)
      · rename_i id hfind
        split at hok
        · exact absurd hok (by simp)
        · rename_i h3 hdecr
          have hidW : id ∈ w :: rest := List.mem_of_find?_eq_some hfind
          have hlen : ((w :: rest).erase id).length = rest.length :=
            by rw [List.length_erase_of_mem hidW]; rfl
          have hidE : id ∉ acc.map Prod.fst := hdisj id hidW
          have hfuel2 : ((w :: rest).erase id).length < fuel := by
            simp only [List.length_cons] at hfuel
            omega
          have hnd2a : ((w :: rest).erase id).Nodup := List.Nodup.erase id hnd
          have hnd2b : ((acc ++ [(id, (h.find id).v)]).map Prod.fst).Nodup := by
            rw [List.map_append]
            refine List.Nodup.append hnd2 (by simp) ?_
            intro x hx hy
            simp only [List.map_cons, List.map_nil, List.mem_singleton] at hy
            subst hy
            exact hidE hx
          have hdisj2 : ∀ x ∈ (w :: rest).erase id,
              x ∉ (acc ++ [(id, (h.find id).v)]).map Prod.fst := by
            intro x hx
            rw [List.map_append]
            have hx2 := (List.Nodup.mem_erase_iff hnd).mp hx
            intro hc
            rcases List.mem_append.mp hc with hc | hc
            · exact hdisj x hx2.2 hc
            · simp only [List.map_cons, List.map_nil, List.mem_singleton] at hc
              exact hx2.1 hc
          have hWE2 : ∀ x, (x ∈ (w :: rest).erase id ∨
              x ∈ (acc ++ [(id, (h.find id).v)]).map Prod.fst) ↔ x ∈ D := by
            intro x
            rw [List.map_append, ← hWE x]
            simp only [List.mem_append, List.map_cons, List.map_nil,
              List.mem_singleton]
            constructor
            · rintro (hx | hx | rfl)
              · exact Or.inl ((List.Nodup.mem_erase_iff hnd).mp hx).2
              · exact Or.inr hx
              · exact Or.inl hidW
            · rintro (hx | hx)
              · by_cases hxid : x = id
                · exact Or.inr (Or.inr hxid)
                · exact Or.inl ((List.Nodup.mem_erase_iff hnd).mpr ⟨hxid, hx⟩)
              · exact Or.inr (Or.inl hx)
          obtain ⟨hL1, hL2, tail, hL3⟩ := ih h3 ((w :: rest).erase id)
            (acc ++ [(id, (h.find id).v)]) hfuel2 hnd2a hnd2b hdisj2 hWE2 hok
          refine ⟨hL1, hL2, (id, (h.find id).v) :: tail, by
            rw [hL3, List.append_assoc]; rfl⟩

theorem append_singleton_split {α : Type} (E : List α) (y : α) (l1 : List α)
    (x : α) (l2 : List α) (hEq : E ++ [y] = l1 ++ x :: l2) :
    (∃ l2a, E = l1 ++ x :: l2a ∧ l2 = l2a ++ [y]) ∨ (l1 = E ∧ x = y ∧ l2 = []) := by
  induction E generalizing l1 with
  | nil =>
    cases l1 with
    | nil =>
      simp only [List.nil_append] at hEq
      injection hEq with h1 h2
      exact Or.inr ⟨rfl, h1.symm, h2.symm⟩
    | cons a l1a =>
      simp only [List.nil_append, List.cons_append] at hEq
      injection hEq with h1 h2
      cases l1a <;> simp at h2
  | cons e E2 ih =>
    cases l1 with
    | nil =>
      simp only [List.cons_append, List.nil_append] at hEq
      injection hEq with h1 h2
      refine Or.inl ⟨E2, ?_, h2.symm⟩
      rw [h1]
      rfl
    | cons a l1a =>
      simp only [List.cons_append] at hEq
      injection hEq with h1 h2
      rcases ih l1a h2 with ⟨l2a, hE2, hl2⟩ | ⟨hl1, hx, hl2⟩
      · refine Or.inl ⟨l2a, ?_, hl2⟩
        rw [h1, hE2]
        rfl
      · refine Or.inr ⟨?_, hx, hl2⟩
        rw [h1, hl1]

theorem sdiff_insert_eq_erase (S T : Finset Int) (a : Int) :
    S \ insert a T = (S \ T).erase a := by
  ext y
  simp only [Finset.mem_sdiff, Finset.mem_insert, Finset.mem_erase]
  tauto

theorem orderLoopFuel_ok_topo (g : DepMap) (D : Finset Int)
    (hInv : ∀ u ∈ D, ∀ w ∈ D, (u ∈ (g.find w).modifies ↔ w ∈ (g.find u).dependsOn))
    (hDk : D ⊆ g.keys) :
    ∀ (fuel : Nat) (h : DepMap) (W : List Int) (acc : List (Int × Option Variable))
      (h2 : DepMap) (L : List (Int × Option Variable)),
      W.length < fuel → W.Nodup →
      agreeButCounter h g →
      (∀ x ∈ W, x ∈ D) →
      (∀ x, (x ∈ W ∨ x ∈ acc.map Prod.fst) ↔ x ∈ D) →
      (∀ x ∈ W, x ∉ acc.map Prod.fst) →
      (∀ w ∈ W, (h.find w).counter =
        (((((g.find w).dependsOn ∩ D) \ (acc.map Prod.fst).toFinset).card : Int))) →
      (∀ l1 x l2, acc.map Prod.fst = l1 ++ x :: l2 →
        ∀ d ∈ (g.find x).dependsOn, d ∈ D → d ∈ l1) →
      orderLoopFuel fuel h D W acc = .ok (h2, L) →
      agreeButCounter h2 g ∧
        (∀ l1 x l2, L.map Prod.fst = l1 ++ x :: l2 →
          ∀ d ∈ (g.find x).dependsOn, d ∈ D → d ∈ l1) := by
  intro fuel
  induction fuel with
  | zero =>
    intro h W acc h2 L hfuel
    omega
  | succ fuel ih =>
    intro h W acc h2 L hfuel hnd hagree hWD hWE hdisj hcnt htopo hok
    match W, hok with
    | [], hok =>
      simp only [orderLoopFuel] at hok
      obtain ⟨rfl, rfl⟩ : h = h2 ∧ acc = L := by
        have := (Except.ok.injEq _ _).mp hok
        exact ⟨congrArg Prod.fst this, congrArg Prod.snd this⟩
      exact ⟨hagree, htopo⟩
    | w :: rest, hok =>
      unfold orderLoopFuel at hok
      split at hok
      · exact absurd hok (by simp)
      · rename_i id hfind
        split at hok
        · exact absurd hok (by simp)
        · rename_i h3 hdecr
          have hidW : id ∈ w :: rest := List.mem_of_find?_eq_some hfind
          have hidD : id ∈ D := hWD id hidW
          have hidE : id ∉ acc.map Prod.fst := hdisj id hidW
          have hcnt0 : (h.find id).counter = 0 := by
            have := List.find?_some hfind
            simpa using this
          have hsub0 : (g.find id).dependsOn ∩ D ⊆ (acc.map Prod.fst).toFinset := by
            have hcard := hcnt id hidW
            rw [hcnt0] at hcard
            have : (((g.find id).dependsOn ∩ D) \ (acc.map Prod.fst).toFinset).card = 0 := by
              omega
            have hempty := Finset.card_eq_zero.mp this
            intro d hd
            by_contra hdn
            have : d ∈ ((g.find id).dependsOn ∩ D) \ (acc.map Prod.fst).toFinset :=
              Finset.mem_sdiff.mpr ⟨hd, hdn⟩
            rw [hempty] at this
            exact absurd this (Finset.not_mem_empty d)
          have hmod : (h.find id).modifies = (g.find id).modifies := (hagree.2 id).2.1
          set ds := ascSort (h.find id).modifies with hds
          have hdsg : ∀ d, d ∈ ds ↔ d ∈ (g.find id).modifies := by
            intro d
            rw [hds, ascSort_mem, hmod]
          have hkeysds : ∀ d ∈ ds, d ∈ D → d ∈ h.keys := by
            intro d _ hdD
            rw [hagree.1]
            exact hDk hdD
          have hposds : ∀ d ∈ ds, d ∈ D → 1 ≤ (h.find d).counter := by
            intro d hdds hdD
            have hdepg : id ∈ (g.find d).dependsOn :=
              (hInv d hdD id hidD).mp ((hdsg d).mp hdds)
            rcases (hWE d).mpr hdD with hdW | hdE
            · have hcd := hcnt d hdW
              have hidmem : id ∈ ((g.find d).dependsOn ∩ D) \
                  (acc.map Prod.fst).toFinset := by
                refine Finset.mem_sdiff.mpr ⟨Finset.mem_inter.mpr ⟨hdepg, hidD⟩, ?_⟩
                intro hc
                exact hidE (List.mem_toFinset.mp hc)
              have hpos := Finset.card_pos.mpr ⟨id, hidmem⟩
              omega
            · obtain ⟨s, t, hst⟩ := List.append_of_mem hdE
              have := htopo s d t hst id hdepg hidD
              have hidacc : id ∈ acc.map Prod.fst := by
                rw [hst]
                exact List.mem_append_left _ this
              exact absurd hidacc hidE
          obtain ⟨h3b, hok3, hagree3, hc3⟩ :=
            decrFold_spec ds h D (ascSort_nodup _) hkeysds hposds
          rw [hdecr] at hok3
          injection hok3 with heq3
          subst heq3
          have hfuel2 : ((w :: rest).erase id).length < fuel := by
            have hle := List.length_erase_of_mem hidW
            simp only [List.length_cons] at hfuel hle
            omega
          have hnd2a : ((w :: rest).erase id).Nodup := List.Nodup.erase id hnd
          have hmemerase : ∀ x, x ∈ (w :: rest).erase id ↔ x ≠ id ∧ x ∈ w :: rest :=
            fun x => List.Nodup.mem_erase_iff hnd
          have haccids : (acc ++ [(id, (h.find id).v)]).map Prod.fst =
              acc.map Prod.fst ++ [id] := by
            rw [List.map_append]
            rfl
          have hWD2 : ∀ x ∈ (w :: rest).erase id, x ∈ D := by
            intro x hx
            exact hWD x ((hmemerase x).mp hx).2
          have hWE2 : ∀ x, (x ∈ (w :: rest).erase id ∨
              x ∈ (acc ++ [(id, (h.find id).v)]).map Prod.fst) ↔ x ∈ D := by
            intro x
            rw [haccids, ← hWE x]
            simp only [List.mem_append, List.mem_singleton]
            constructor
            · rintro (hx | hx | rfl)
              · exact Or.inl ((hmemerase x).mp hx).2
              · exact Or.inr hx
              · exact Or.inl hidW
            · rintro (hx | hx)
              · by_cases hxid : x = id
                · exact Or.inr (Or.inr hxid)
                · exact Or.inl ((hmemerase x).mpr ⟨hxid, hx⟩)
              · exact Or.inr (Or.inl hx)
          have hdisj2 : ∀ x ∈ (w :: rest).erase id,
              x ∉ (acc ++ [(id, (h.find id).v)]).map Prod.fst := by
            intro x hx
            rw [haccids]
            have hx2 := (hmemerase x).mp hx
            intro hc
            rcases List.mem_append.mp hc with hc | hc
            · exact hdisj x hx2.2 hc
            · exact hx2.1 (List.mem_singleton.mp hc)
          have hcnt2 : ∀ x ∈ (w :: rest).erase id, (h3.find x).counter =
              (((((g.find x).dependsOn ∩ D) \
                ((acc ++ [(id, (h.find id).v)]).map Prod.fst).toFinset).card : Int)) := by
            intro x hx
            have hx2 := (hmemerase x).mp hx
            have hxD : x ∈ D := hWD x hx2.2
            rw [haccids, hc3 x]
            have htf : (acc.map Prod.fst ++ [id]).toFinset =
                insert id (acc.map Prod.fst).toFinset := by
              rw [List.toFinset_append]
              ext y
              simp only [Finset.mem_union, List.mem_toFinset, List.mem_singleton,
                Finset.mem_insert]
              tauto
            rw [htf, sdiff_insert_eq_erase]
            have hcond : (x ∈ ds ∧ x ∈ D) ↔ id ∈ (g.find x).dependsOn := by
              constructor
              · rintro ⟨hxds, _⟩
                exact (hInv x hxD id hidD).mp ((hdsg x).mp hxds)
              · intro hdep
                exact ⟨(hdsg x).mpr ((hInv x hxD id hidD).mpr hdep), hxD⟩
            by_cases hdep : id ∈ (g.find x).dependsOn
            · have hcondT : x ∈ ds ∧ x ∈ D := hcond.mpr hdep
              simp only [hcondT, if_true, and_self]
              rw [hcnt x hx2.2]
              have hidmem : id ∈ ((g.find x).dependsOn ∩ D) \
                  (acc.map Prod.fst).toFinset := by
                refine Finset.mem_sdiff.mpr ⟨Finset.mem_inter.mpr ⟨hdep, hidD⟩, ?_⟩
                intro hc
                exact hidE (List.mem_toFinset.mp hc)
              rw [Finset.card_erase_of_mem hidmem]
              have hpos := Finset.card_pos.mpr ⟨id, hidmem⟩
              omega
            · have hcondF : ¬ (x ∈ ds ∧ x ∈ D) := fun hc => hdep (hcond.mp hc)
              simp only [hcondF, if_false]
              rw [hcnt x hx2.2]
              congr 1
              rw [Finset.erase_eq_of_not_mem]
              intro hc
              exact hdep (Finset.mem_inter.mp (Finset.mem_sdiff.mp hc).1).1
          have htopo2 : ∀ l1 x l2,
              (acc ++ [(id, (h.find id).v)]).map Prod.fst = l1 ++ x :: l2 →
              ∀ d ∈ (g.find x).dependsOn, d ∈ D → d ∈ l1 := by
            intro l1 x l2 hsplit d hd hdD
            rw [haccids] at hsplit
            rcases append_singleton_split _ _ _ _ _ hsplit with
              ⟨l2a, hE, _⟩ | ⟨hl1, hx, _⟩
            · exact htopo l1 x l2a hE d hd hdD
            · subst hx
              rw [hl1]
              refine List.mem_toFinset.mp (hsub0 ?_)
              exact Finset.mem_inter.mpr ⟨hd, hdD⟩
          exact ih h3 ((w :: rest).erase id) (acc ++ [(id, (h.find id).v)]) h2 L
            hfuel2 hnd2a (agreeButCounter_trans hagree3 hagree) hWD2 hWE2 hdisj2
            hcnt2 htopo2 hok

theorem makeUpdateOrder_eq_loop (h : DepMap) (inds : List Variable) (D : Finset Int) :
    makeUpdateOrder h inds D =
      orderLoopFuel ((ascSort D).length + 1) (initCounters h D) D
        (ascSort D) [] := rfl

theorem makeUpdateOrder_ok_ids (h : DepMap) (inds : List Variable) (D : Finset Int)
    (h2 : DepMap) (L : List (Int × Option Variable))
    (hok : makeUpdateOrder h inds D = .ok (h2, L)) :
    (L.map Prod.fst).Nodup ∧ ∀ x, x ∈ L.map Prod.fst ↔ x ∈ D := by
  rw [makeUpdateOrder_eq_loop] at hok
  have hWE : ∀ x, (x ∈ ascSort D ∨
      x ∈ (([] : List (Int × Option Variable)).map Prod.fst)) ↔ x ∈ D := by
    intro x
    simp only [List.map_nil, List.not_mem_nil, or_false]
    exact ascSort_mem _ _
  obtain ⟨h1, h2', _⟩ := orderLoopFuel_ok_ids _ _ _ _ _ _ _
    (by omega) (ascSort_nodup _) (by simp) (by simp) hWE hok
  exact ⟨h1, h2'⟩

theorem makeUpdateOrder_error (h : DepMap) (inds : List Variable) (D : Finset Int)
    (e : SchnekError) (he : makeUpdateOrder h inds D = .error e) : e = .assertFailed := by
  rw [makeUpdateOrder_eq_loop] at he
  exact orderLoopFuel_error _ _ _ _ _ _ he

theorem makeUpdateOrder_ok_topo (g : DepMap) (inds : List Variable) (D : Finset Int)
    (hInv : ∀ u ∈ D, ∀ w ∈ D, (u ∈ (g.find w).modifies ↔ w ∈ (g.find u).dependsOn))
    (hDk : D ⊆ g.keys) (h2 : DepMap) (L : List (Int × Option Variable))
    (hok : makeUpdateOrder g inds D = .ok (h2, L)) :
    agreeButCounter h2 g ∧
      (∀ l1 x l2, L.map Prod.fst = l1 ++ x :: l2 →
        ∀ d ∈ (g.find x).dependsOn, d ∈ D → d ∈ l1) := by
  rw [makeUpdateOrder_eq_loop] at hok
  refine orderLoopFuel_ok_topo g D hInv hDk _ _ _ _ _ _
    (by omega) (ascSort_nodup _) (initCounters_agree g D hDk) ?_ ?_ (by simp) ?_ ?_ hok
  · intro x hx
    exact (ascSort_mem _ _).mp hx
  · intro x
    simp only [List.map_nil, List.not_mem_nil, or_false]
    exact ascSort_mem _ _
  · intro w hw
    rw [initCounters_counter g D hDk w ((ascSort_mem _ _).mp hw)]
    simp
  · intro l1 x l2 hsplit
    simp only [List.map_nil] at hsplit
    exact absurd hsplit.symm (List.append_ne_nil_of_right_ne_nil _ (by simp))

theorem wf_inverse_find (m : DepMap) (hwf : WFMap m) (u w : Int) :
    u ∈ (m.find w).modifies ↔ w ∈ (m.find u).dependsOn := by
  unfold DepMap.find
  by_cases hw : w ∈ m.keys
  · by_cases hu : u ∈ m.keys
    · simp only [hw, hu, if_true]
      exact (hwf.2 w hw u hu).symm
    · simp only [hw, hu, if_true, if_false]
      constructor
      · intro hc
        exact absurd ((hwf.1 w hw).2 hc) hu
      · intro hc
        simp [default] at hc
  · by_cases hu : u ∈ m.keys
    · simp only [hw, hu, if_true, if_false]
      constructor
      · intro hc
        simp [default] at hc
      · intro hc
        exact absurd ((hwf.1 u hu).1 hc) hw
    · simp only [hw, hu, if_false]
      simp [default]

theorem requiredBy_mem_keys (m : DepMap) (dvs : List Variable) (x : Int)
    (hwf : WFMap m) (hdep : ∀ v ∈ dvs, v.id ∈ m.keys)
    (hreq : requiredBy m dvs x) : x ∈ m.keys := by
  obtain ⟨v, hv, hrtg⟩ := hreq
  have hsrc : v.id ∈ m.keys := hdep v hv
  clear hv
  induction hrtg with
  | refl => exact hsrc
  | tail h1 h2 ih =>
    rename_i b c
    have hb : b ∈ m.keys := ih
    have : (m.find b).dependsOn ⊆ m.keys := by
      unfold DepMap.find
      simp only [hb, if_true]
      exact (hwf.1 b hb).1
    exact this h2

theorem rtg_congr {r r2 : Int → Int → Prop} (hrr : ∀ a b, r a b ↔ r2 a b)
    (a b : Int) (h : Relation.ReflTransGen r a b) : Relation.ReflTransGen r2 a b := by
  induction h with
  | refl => exact Relation.ReflTransGen.refl
  | tail h1 h2 ih => exact Relation.ReflTransGen.tail ih ((hrr _ _).mp h2)

/-! ## Lemmas about the composed resolver `makeUpdateList` -/

theorem makeUpdateList_eq (m : DepMap) (inds dvs : List Variable) :
    makeUpdateList m inds dvs =
      makeUpdateOrder (makeUpdatePredecessors m dvs).1 inds
        (makeUpdateFollowers (makeUpdatePredecessors m dvs).1 inds
          (makeUpdatePredecessors m dvs).2) := rfl

theorem makeUpdateList_ok_mem (m : DepMap) (inds dvs : List Variable)
    (h2 : DepMap) (L : List (Int × Option Variable))
    (hok : makeUpdateList m inds dvs = .ok (h2, L)) :
    (∀ x, x ∈ L.map Prod.fst ↔
      x ∈ makeUpdateFollowers (makeUpdatePredecessors m dvs).1 inds
        (makeUpdatePredecessors m dvs).2) ∧
    (L.map Prod.fst).Nodup := by
  rw [makeUpdateList_eq] at hok
  obtain ⟨hnd, hmem⟩ := makeUpdateOrder_ok_ids _ _ _ _ _ hok
  exact ⟨hmem, hnd⟩

theorem makeUpdateList_error_val (m : DepMap) (inds dvs : List Variable)
    (e : SchnekError) (he : makeUpdateList m inds dvs = .error e) :
    e = .assertFailed := by
  rw [makeUpdateList_eq] at he
  exact makeUpdateOrder_error _ _ _ _ he

theorem followers_char (m : DepMap) (inds dvs : List Variable) (x : Int) :
    x ∈ makeUpdateFollowers (makeUpdatePredecessors m dvs).1 inds
      (makeUpdatePredecessors m dvs).2 ↔
      (requiredBy m dvs x ∧ relevantNode m inds dvs x) := by
  have hP : ∀ y, y ∈ (makeUpdatePredecessors m dvs).2 ↔ requiredBy m dvs y :=
    makeUpdatePredecessors_mem m dvs
  have hfind : ∀ y, (makeUpdatePredecessors m dvs).1.find y = m.find y :=
    makeUpdatePredecessors_find m dvs
  have hiff : ∀ a b, (b ∈ ((makeUpdatePredecessors m dvs).1.find a).modifies ∧
      b ∈ (makeUpdatePredecessors m dvs).2) ↔
      modEdgeIn m {y | requiredBy m dvs y} a b := by
    intro a b
    unfold modEdgeIn
    rw [hfind a, hP b]
    rfl
  rw [makeUpdateFollowers_mem]
  constructor
  · rintro ⟨v, hv, hvP, hrtg⟩
    refine ⟨?_, v, hv, (hP v.id).mp hvP, rtg_congr hiff _ _ hrtg⟩
    rcases Relation.ReflTransGen.cases_tail hrtg with heq | ⟨c, _, hedge⟩
    · exact heq ▸ (hP v.id).mp hvP
    · exact (hP x).mp hedge.2
  · rintro ⟨_, v, hv, hreqv, hrtg⟩
    exact ⟨v, hv, (hP v.id).mpr hreqv,
      rtg_congr (fun a b => (hiff a b).symm) _ _ hrtg⟩

theorem makeUpdateList_ok_topo (m : DepMap) (inds dvs : List Variable)
    (hwf : WFMap m) (h2 : DepMap) (L : List (Int × Option Variable))
    (hok : makeUpdateList m inds dvs = .ok (h2, L)) :
    agreeButCounter h2 (makeUpdatePredecessors m dvs).1 ∧
      (∀ l1 x l2, L.map Prod.fst = l1 ++ x :: l2 →
        ∀ d ∈ (m.find x).dependsOn,
          d ∈ makeUpdateFollowers (makeUpdatePredecessors m dvs).1 inds
            (makeUpdatePredecessors m dvs).2 → d ∈ l1) := by
  have hfind : ∀ y, (makeUpdatePredecessors m dvs).1.find y = m.find y :=
    makeUpdatePredecessors_find m dvs
  rw [makeUpdateList_eq] at hok
  have hInv : ∀ u ∈ makeUpdateFollowers (makeUpdatePredecessors m dvs).1 inds
      (makeUpdatePredecessors m dvs).2,
      ∀ w ∈ makeUpdateFollowers (makeUpdatePredecessors m dvs).1 inds
        (makeUpdatePredecessors m dvs).2,
      (u ∈ ((makeUpdatePredecessors m dvs).1.find w).modifies ↔
        w ∈ ((makeUpdatePredecessors m dvs).1.find u).dependsOn) := by
    intro u _ w _
    rw [hfind w, hfind u]
    exact wf_inverse_find m hwf u w
  have hDk : makeUpdateFollowers (makeUpdatePredecessors m dvs).1 inds
      (makeUpdatePredecessors m dvs).2 ⊆ (makeUpdatePredecessors m dvs).1.keys := by
    rw [makeUpdatePredecessors_keys]
    exact Finset.Subset.trans (makeUpdateFollowers_sub _ _ _) Finset.subset_union_right
  obtain ⟨hagree, htopo⟩ := makeUpdateOrder_ok_topo _ _ _ hInv hDk _ _ hok
  refine ⟨hagree, ?_⟩
  intro l1 x l2 hsplit d hd hdF
  refine htopo l1 x l2 hsplit d ?_ hdF
  rw [hfind x]
  exact hd

theorem makeUpdateList_cycle_error (m : DepMap) (inds dvs : List Variable)
    (hwf : WFMap m)
    (hcyc : hasCycleIn m (makeUpdateFollowers (makeUpdatePredecessors m dvs).1 inds
      (makeUpdatePredecessors m dvs).2)) :
    makeUpdateList m inds dvs = .error .assertFailed := by
  match hres : makeUpdateList m inds dvs with
  | .error e =>
    rw [makeUpdateList_error_val m inds dvs e hres]
  | .ok (h2, L) =>
    exfalso
    obtain ⟨hmem, hnd⟩ := makeUpdateList_ok_mem m inds dvs h2 L hres
    obtain ⟨_, htopo⟩ := makeUpdateList_ok_topo m inds dvs hwf h2 L hres
    obtain ⟨x, htg⟩ := hcyc
    have hxF : x ∈ makeUpdateFollowers (makeUpdatePredecessors m dvs).1 inds
        (makeUpdatePredecessors m dvs).2 := by
      cases htg with
      | single h => exact h.1
      | tail h1 h2 => exact h2.2.1
    have hxids : x ∈ L.map Prod.fst := (hmem x).mpr hxF
    obtain ⟨l1, l2, hsplit⟩ := List.append_of_mem hxids
    have key : ∀ c, Relation.TransGen (fun a b =>
        a ∈ makeUpdateFollowers (makeUpdatePredecessors m dvs).1 inds
          (makeUpdatePredecessors m dvs).2 ∧
        b ∈ makeUpdateFollowers (makeUpdatePredecessors m dvs).1 inds
          (makeUpdatePredecessors m dvs).2 ∧
        b ∈ (m.find a).dependsOn) x c → c ∈ l1 := by
      intro c htgc
      induction htgc with
      | single h => exact htopo l1 x l2 hsplit _ h.2.2 h.2.1
      | tail h1 h2 ih =>
        rename_i b c2
        obtain ⟨l1a, l1b, hsplit2⟩ := List.append_of_mem ih
        have hsplit3 : L.map Prod.fst = l1a ++ b :: (l1b ++ x :: l2) := by
          rw [hsplit, hsplit2]
          simp [List.append_assoc]
        have hc2 := htopo l1a b (l1b ++ x :: l2) hsplit3 _ h2.2.2 h2.2.1
        rw [hsplit2]
        exact List.mem_append_left _ hc2
    have hxl1 : x ∈ l1 := key x htg
    rw [hsplit] at hnd
    exact (List.nodup_append.mp hnd).2.2 hxl1 (List.mem_cons_self x l2)

theorem makeUpdateList_frame_raw (m : DepMap) (inds dvs : List Variable)
    (hwf : WFMap m) (hdep : ∀ v ∈ dvs, v.id ∈ m.keys)
    (h2 : DepMap) (L : List (Int × Option Variable))
    (hok : makeUpdateList m inds dvs = .ok (h2, L)) :
    h2.keys = m.keys ∧ ∀ x, (h2.find x).dependsOn = (m.find x).dependsOn ∧
      (h2.find x).modifies = (m.find x).modifies ∧ (h2.find x).v = (m.find x).v := by
  obtain ⟨hagree, _⟩ := makeUpdateList_ok_topo m inds dvs hwf h2 L hok
  have hPk : (makeUpdatePredecessors m dvs).2 ⊆ m.keys := by
    intro x hx
    exact requiredBy_mem_keys m dvs x hwf hdep ((makeUpdatePredecessors_mem m dvs x).mp hx)
  have hkeys1 : (makeUpdatePredecessors m dvs).1.keys = m.keys := by
    rw [makeUpdatePredecessors_keys]
    exact Finset.union_eq_left.mpr hPk
  refine ⟨hagree.1.trans hkeys1, fun x => ?_⟩
  obtain ⟨hd, hm, hv⟩ := hagree.2 x
  rw [makeUpdatePredecessors_find] at hd hm hv
  exact ⟨hd, hm, hv⟩

/-! ## Lemmas about graph construction -/

theorem constructMapVars_spec (vars : List Variable) (m m2 : DepMap)
    (hok : constructMapVars vars m = .ok m2) :
    m2.keys = m.keys ∪ ((vars.filter (fun v => !v.isConstant)).map Variable.id).toFinset ∧
    ((vars.filter (fun v => !v.isConstant)).map Variable.id).Nodup ∧
    (∀ i ∈ (vars.filter (fun v => !v.isConstant)).map Variable.id, i ∉ m.keys) ∧
    (∀ x, x ∉ (vars.filter (fun v => !v.isConstant)).map Variable.id → m2.val x = m.val x) ∧
    (∀ x ∈ (vars.filter (fun v => !v.isConstant)).map Variable.id,
      (m2.val x).modifies = ∅) := by
  induction vars generalizing m with
  | nil =>
    simp only [constructMapVars] at hok
    obtain rfl : m = m2 := by injection hok
    simp
  | cons v rest ih =>
    unfold constructMapVars at hok
    by_cases hc : v.isConstant
    · simp only [hc, if_true] at hok
      obtain ⟨h1, h2, h3, h4, h5⟩ := ih m hok
      simp only [List.filter_cons, hc]
      exact ⟨h1, h2, h3, h4, h5⟩
    · simp only [hc, if_false] at hok
      by_cases hk : v.id ∈ m.keys
      · simp only [hk, if_true] at hok
        exact absurd hok (by simp)
      · simp only [hk, if_false] at hok
        obtain ⟨h1, h2, h3, h4, h5⟩ := ih _ hok
        have hfc : (v :: rest).filter (fun v => !v.isConstant) =
            v :: rest.filter (fun v => !v.isConstant) := by
          simp [List.filter_cons, hc]
        rw [hfc]
        simp only [List.map_cons, List.toFinset_cons]
        have hkeys' : (m.set v.id ⟨some v, v.deps, ∅, 0⟩).keys = insert v.id m.keys :=
          DepMap.keys_set m v.id _
        have hvnotr : v.id ∉ (rest.filter (fun v => !v.isConstant)).map Variable.id := by
          intro hcmem
          have := h3 v.id hcmem
          rw [hkeys'] at this
          exact this (Finset.mem_insert_self _ _)
        refine ⟨?_, ?_, ?_, ?_, ?_⟩
        · rw [h1, hkeys']
          ext z
          simp only [Finset.mem_union, Finset.mem_insert]
          tauto
        · exact List.Nodup.cons hvnotr h2
        · intro i hi
          rcases List.mem_cons.mp hi with rfl | hi'
          · exact hk
          · intro hik
            exact h3 i hi' (by rw [hkeys']; exact Finset.mem_insert_of_mem hik)
        · intro x hx
          have hx1 : x ∉ (rest.filter (fun v => !v.isConstant)).map Variable.id :=
            fun hcm => hx (List.mem_cons_of_mem _ hcm)
          have hx2 : x ≠ v.id := fun hcm => hx (hcm ▸ List.mem_cons_self _ _)
          rw [h4 x hx1]
          unfold DepMap.set
          exact Function.update_noteq hx2 _ _
        · intro x hx
          rcases List.mem_cons.mp hx with rfl | hx'
          · rw [h4 v.id hvnotr]
            simp [DepMap.set, Function.update_same]
          · exact h5 x hx'

theorem constructMapVars_error (vars : List Variable) (m : DepMap) (e : SchnekError)
    (he : constructMapVars vars m = .error e) : e = .schnekException := by
  induction vars generalizing m with
  | nil => simp [constructMapVars] at he
  | cons v rest ih =>
    unfold constructMapVars at he
    by_cases hc : v.isConstant
    · simp only [hc, if_true] at he
      exact ih m he
    · simp only [hc, if_false] at he
      by_cases hk : v.id ∈ m.keys
      · simp only [hk, if_true] at he
        injection he with he2
        exact he2.symm
      · simp only [hk, if_false] at he
        exact ih _ he

mutual

theorem constructMapRecursive_spec (bv : BlockVariables) (m m2 : DepMap)
    (hok : constructMapRecursive bv m = .ok m2) :
    m2.keys = m.keys ∪ (nonConstIds bv).toFinset ∧
    (nonConstIds bv).Nodup ∧
    (∀ i ∈ nonConstIds bv, i ∉ m.keys) ∧
    (∀ x, x ∉ nonConstIds bv → m2.val x = m.val x) ∧
    (∀ x ∈ nonConstIds bv, (m2.val x).modifies = ∅) := by
  match bv with
  | .node vars children =>
    unfold constructMapRecursive at hok
    match hv : constructMapVars vars m with
    | .error e =>
      rw [hv] at hok
      exact absurd hok (by simp)
    | .ok m1 =>
      rw [hv] at hok
      obtain ⟨v1, v2, v3, v4, v5⟩ := constructMapVars_spec vars m m1 hv
      obtain ⟨c1, c2, c3, c4, c5⟩ := constructMapChildren_spec children m1 m2 hok
      have hflat : nonConstIds (.node vars children) =
          (vars.filter (fun v => !v.isConstant)).map Variable.id ++
            nonConstIdsList children := rfl
      have hvc : ∀ i ∈ (vars.filter (fun v => !v.isConstant)).map Variable.id,
          i ∉ nonConstIdsList children := by
        intro i hi hci
        refine c3 i hci ?_
        rw [v1]
        exact Finset.mem_union_right _ (List.mem_toFinset.mpr hi)
      refine ⟨?_, ?_, ?_, ?_, ?_⟩
      · rw [c1, v1, hflat]
        ext z
        simp only [Finset.mem_union, List.mem_toFinset, List.mem_append]
        tauto
      · rw [hflat]
        exact List.Nodup.append v2 c2 hvc
      · intro i hi
        rw [hflat] at hi
        rcases List.mem_append.mp hi with hi' | hi'
        · exact v3 i hi'
        · intro hik
          refine c3 i hi' ?_
          rw [v1]
          exact Finset.mem_union_left _ hik
      · intro x hx
        rw [hflat] at hx
        have hx1 : x ∉ nonConstIdsList children :=
          fun hcm => hx (List.mem_append_right _ hcm)
        have hx2 : x ∉ (vars.filter (fun v => !v.isConstant)).map Variable.id :=
          fun hcm => hx (List.mem_append_left _ hcm)
        rw [c4 x hx1, v4 x hx2]
      · intro x hx
        rw [hflat] at hx
        rcases List.mem_append.mp hx with hx' | hx'
        · rw [c4 x (fun hcm => hvc x hx' hcm)]
          exact v5 x hx'
        · exact c5 x hx'

theorem constructMapChildren_spec (l : List BlockVariables) (m m2 : DepMap)
    (hok : constructMapChildren l m = .ok m2) :
    m2.keys = m.keys ∪ (nonConstIdsList l).toFinset ∧
    (nonConstIdsList l).Nodup ∧
    (∀ i ∈ nonConstIdsList l, i ∉ m.keys) ∧
    (∀ x, x ∉ nonConstIdsList l → m2.val x = m.val x) ∧
    (∀ x ∈ nonConstIdsList l, (m2.val x).modifies = ∅) := by
  match l with
  | [] =>
    simp only [constructMapChildren] at hok
    obtain rfl : m = m2 := by injection hok
    simp [nonConstIdsList]
  | ch :: rest =>
    unfold constructMapChildren at hok
    match hc : constructMapRecursive ch m with
    | .error e =>
      rw [hc] at hok
      exact absurd hok (by simp)
    | .ok m1 =>
      rw [hc] at hok
      obtain ⟨a1, a2, a3, a4, a5⟩ := constructMapRecursive_spec ch m m1 hc
      obtain ⟨b1, b2, b3, b4, b5⟩ := constructMapChildren_spec rest m1 m2 hok
      have hflat : nonConstIdsList (ch :: rest) =
          nonConstIds ch ++ nonConstIdsList rest := rfl
      have hab : ∀ i ∈ nonConstIds ch, i ∉ nonConstIdsList rest := by
        intro i hi hci
        refine b3 i hci ?_
        rw [a1]
        exact Finset.mem_union_right _ (List.mem_toFinset.mpr hi)
      refine ⟨?_, ?_, ?_, ?_, ?_⟩
      · rw [b1, a1, hflat]
        ext z
        simp only [Finset.mem_union, List.mem_toFinset, List.mem_append]
        tauto
      · rw [hflat]
        exact List.Nodup.append a2 b2 hab
      · intro i hi
        rw [hflat] at hi
        rcases List.mem_append.mp hi with hi' | hi'
        · exact a3 i hi'
        · intro hik
          refine b3 i hi' ?_
          rw [a1]
          exact Finset.mem_union_left _ hik
      · intro x hx
        rw [hflat] at hx
        have hx1 : x ∉ nonConstIdsList rest :=
          fun hcm => hx (List.mem_append_right _ hcm)
        have hx2 : x ∉ nonConstIds ch :=
          fun hcm => hx (List.mem_append_left _ hcm)
        rw [b4 x hx1, a4 x hx2]
      · intro x hx
        rw [hflat] at hx
        rcases List.mem_append.mp hx with hx' | hx'
        · rw [b4 x (fun hcm => hab x hx' hcm)]
          exact a5 x hx'
        · exact b5 x hx'

end

mutual

theorem constructMapRecursive_error (bv : BlockVariables) (m : DepMap)
    (e : SchnekError) (he : constructMapRecursive bv m = .error e) :
    e = .schnekException := by
  match bv with
  | .node vars children =>
    unfold constructMapRecursive at he
    match hv : constructMapVars vars m with
    | .error e2 =>
      rw [hv] at he
      injection he with he2
      rw [← he2]
      exact constructMapVars_error vars m e2 hv
    | .ok m1 =>
      rw [hv] at he
      exact constructMapChildren_error children m1 e he

theorem constructMapChildren_error (l : List BlockVariables) (m : DepMap)
    (e : SchnekError) (he : constructMapChildren l m = .error e) :
    e = .schnekException := by
  match l with
  | [] => simp [constructMapChildren] at he
  | ch :: rest =>
    unfold constructMapChildren at he
    match hc : constructMapRecursive ch m with
    | .error e2 =>
      rw [hc] at he
      injection he with he2
      rw [← he2]
      exact constructMapRecursive_error ch m e2 hc
    | .ok m1 =>
      rw [hc] at he
      exact constructMapChildren_error rest m1 e he

end

theorem addModify_find (m : DepMap) (d id x : Int) :
    (addModify m d id).find x =
      if x = d then { m.find d with modifies := insert id (m.find d).modifies }
      else m.find x := by
  have heq : addModify m d id = (m.getOrInsert d).set d
      { (m.getOrInsert d).find d with
        modifies := insert id ((m.getOrInsert d).find d).modifies } := rfl
  by_cases hx : x = d
  · subst hx
    rw [heq, DepMap.find_set_self, DepMap.find_getOrInsert, if_pos rfl]
  · rw [heq, DepMap.find_set_ne _ _ _ _ hx, if_neg hx, DepMap.find_getOrInsert]

theorem addModify_keys (m : DepMap) (d id : Int) :
    (addModify m d id).keys = insert d m.keys := by
  unfold addModify
  rw [DepMap.keys_set, DepMap.keys_getOrInsert]
  simp

theorem innerFold_find (ds : List Int) (m : DepMap) (id : Int) (x : Int) :
    ((ds.foldl (fun a d => addModify a d id) m).find x) =
      if x ∈ ds then { m.find x with modifies := insert id (m.find x).modifies }
      else m.find x := by
  induction ds generalizing m with
  | nil => simp
  | cons d rest ih =>
    simp only [List.foldl_cons]
    rw [ih (addModify m d id)]
    by_cases hr : x ∈ rest
    · simp only [hr, if_true, List.mem_cons, or_true, if_true]
      rw [addModify_find]
      by_cases hx : x = d
      · subst hx
        simp [Finset.insert_idem]
      · simp [hx]
    · simp only [hr, if_false]
      by_cases hx : x = d
      · subst hx
        simp only [List.mem_cons, true_or, if_true]
        rw [addModify_find]
        simp
      · simp only [List.mem_cons, hx, hr, or_self, if_false]
        rw [addModify_find]
        simp [hx]

theorem innerFold_keys (ds : List Int) (m : DepMap) (id : Int) :
    ((ds.foldl (fun a d => addModify a d id) m).keys) = m.keys ∪ ds.toFinset := by
  induction ds generalizing m with
  | nil => simp
  | cons d rest ih =>
    simp only [List.foldl_cons, List.toFinset_cons]
    rw [ih (addModify m d id), addModify_keys]
    ext z
    simp only [Finset.mem_union, Finset.mem_insert]
    tauto

theorem outerFold_find (l : List Int) (m acc : DepMap) (x : Int) :
    (((l.foldl (fun acc id =>
        (ascSort (m.val id).dependsOn).foldl (fun a d => addModify a d id) acc)
        acc).find x).dependsOn = (acc.find x).dependsOn ∧
      ((l.foldl (fun acc id =>
        (ascSort (m.val id).dependsOn).foldl (fun a d => addModify a d id) acc)
        acc).find x).v = (acc.find x).v ∧
      ((l.foldl (fun acc id =>
        (ascSort (m.val id).dependsOn).foldl (fun a d => addModify a d id) acc)
        acc).find x).counter = (acc.find x).counter) ∧
    ∀ y, (y ∈ ((l.foldl (fun acc id =>
        (ascSort (m.val id).dependsOn).foldl (fun a d => addModify a d id) acc)
        acc).find x).modifies ↔
      y ∈ (acc.find x).modifies ∨ (y ∈ l ∧ x ∈ (m.val y).dependsOn)) := by
  induction l generalizing acc with
  | nil => simp
  | cons id rest ih =>
    simp only [List.foldl_cons]
    set acc1 := (ascSort (m.val id).dependsOn).foldl (fun a d => addModify a d id) acc
      with hacc1
    have hone : acc1.find x =
        if x ∈ ascSort (m.val id).dependsOn then
          { acc.find x with modifies := insert id (acc.find x).modifies }
        else acc.find x := innerFold_find _ _ _ _
    obtain ⟨⟨ihd, ihv, ihc⟩, ihm⟩ := ih acc1
    by_cases hx : x ∈ (m.val id).dependsOn
    · have hxs : x ∈ ascSort (m.val id).dependsOn := (ascSort_mem _ _).mpr hx
      rw [if_pos hxs] at hone
      refine ⟨⟨by rw [ihd, hone], by rw [ihv, hone], by rw [ihc, hone]⟩, ?_⟩
      intro y
      rw [ihm y, hone]
      simp only [Finset.mem_insert, List.mem_cons]
      constructor
      · rintro ((rfl | hy) | ⟨hy1, hy2⟩)
        · exact Or.inr ⟨Or.inl rfl, hx⟩
        · exact Or.inl hy
        · exact Or.inr ⟨Or.inr hy1, hy2⟩
      · rintro (hy | ⟨rfl | hy1, hy2⟩)
        · exact Or.inl (Or.inr hy)
        · exact Or.inl (Or.inl rfl)
        · exact Or.inr ⟨hy1, hy2⟩
    · have hxs : x ∉ ascSort (m.val id).dependsOn :=
        fun hcm => hx ((ascSort_mem _ _).mp hcm)
      rw [if_neg hxs] at hone
      refine ⟨⟨by rw [ihd, hone], by rw [ihv, hone], by rw [ihc, hone]⟩, ?_⟩
      intro y
      rw [ihm y, hone]
      simp only [List.mem_cons]
      constructor
      · rintro (hy | ⟨hy1, hy2⟩)
        · exact Or.inl hy
        · exact Or.inr ⟨Or.inr hy1, hy2⟩
      · rintro (hy | ⟨rfl | hy1, hy2⟩)
        · exact Or.inl hy
        · exact absurd hy2 hx
        · exact Or.inr ⟨hy1, hy2⟩

theorem outerFold_keys (l : List Int) (m acc : DepMap) :
    ∀ z, (z ∈ (l.foldl (fun acc id =>
        (ascSort (m.val id).dependsOn).foldl (fun a d => addModify a d id) acc)
        acc).keys ↔
      z ∈ acc.keys ∨ ∃ id ∈ l, z ∈ (m.val id).dependsOn) := by
  induction l generalizing acc with
  | nil => simp
  | cons id rest ih =>
    intro z
    simp only [List.foldl_cons]
    rw [ih]
    rw [innerFold_keys]
    simp only [Finset.mem_union, List.mem_toFinset, ascSort_mem, List.mem_cons]
    constructor
    · rintro ((hz | hz) | ⟨i, hi1, hi2⟩)
      · exact Or.inl hz
      · exact Or.inr ⟨id, Or.inl rfl, hz⟩
      · exact Or.inr ⟨i, Or.inr hi1, hi2⟩
    · rintro (hz | ⟨i, rfl | hi1, hi2⟩)
      · exact Or.inl (Or.inl hz)
      · exact Or.inl (Or.inr hi2)
      · exact Or.inr ⟨i, hi1, hi2⟩

theorem constructMapInverse_find (m : DepMap) (x : Int) :
    (((constructMapInverse m).find x).dependsOn = (m.find x).dependsOn ∧
      ((constructMapInverse m).find x).v = (m.find x).v ∧
      ((constructMapInverse m).find x).counter = (m.find x).counter) ∧
    ∀ y, (y ∈ ((constructMapInverse m).find x).modifies ↔
      y ∈ (m.find x).modifies ∨ (y ∈ m.keys ∧ x ∈ (m.val y).dependsOn)) := by
  unfold constructMapInverse
  obtain ⟨hfields, hmod⟩ := outerFold_find (ascSort m.keys) m m x
  refine ⟨hfields, fun y => ?_⟩
  rw [hmod y, ascSort_mem]

theorem constructMapInverse_keys (m : DepMap) (z : Int) :
    z ∈ (constructMapInverse m).keys ↔
      z ∈ m.keys ∨ ∃ id ∈ m.keys, z ∈ (m.val id).dependsOn := by
  unfold constructMapInverse
  rw [outerFold_keys]
  constructor
  · rintro (hz | ⟨i, hi1, hi2⟩)
    · exact Or.inl hz
    · exact Or.inr ⟨i, (ascSort_mem _ _).mp hi1, hi2⟩
  · rintro (hz | ⟨i, hi1, hi2⟩)
    · exact Or.inl hz
    · exact Or.inr ⟨i, (ascSort_mem _ _).mpr hi1, hi2⟩

theorem DepMap.find_eq_val (m : DepMap) (z : Int) (h : z ∈ m.keys) :
    m.find z = m.val z := if_pos h

theorem constructMap_ok_cases (bv : BlockVariables) (m : DepMap)
    (hok : constructMap bv = .ok m) :
    ∃ m0, constructMapRecursive bv DepMap.empty = .ok m0 ∧
      m = constructMapInverse m0 := by
  unfold constructMap at hok
  cases hres : constructMapRecursive bv DepMap.empty with
  | error e =>
    rw [hres] at hok
    exact absurd hok (by simp [Except.map])
  | ok m0 =>
    rw [hres] at hok
    simp only [Except.map, Except.ok.injEq] at hok
    exact ⟨m0, rfl, hok.symm⟩

theorem constructMapRecursive_empty_modifies (bv : BlockVariables) (m0 : DepMap)
    (hok : constructMapRecursive bv DepMap.empty = .ok m0) :
    ∀ x, (m0.val x).modifies = ∅ := by
  obtain ⟨h1, _, _, h4, h5⟩ := constructMapRecursive_spec bv DepMap.empty m0 hok
  intro x
  by_cases hx : x ∈ nonConstIds bv
  · exact h5 x hx
  · rw [h4 x hx]
    rfl

theorem constructMap_inverse_find (bv : BlockVariables) (m : DepMap)
    (hok : constructMap bv = .ok m) (x y : Int) :
    x ∈ (m.find y).dependsOn ↔ y ∈ (m.find x).modifies := by
  obtain ⟨m0, hrec, rfl⟩ := constructMap_ok_cases bv m hok
  have hmodempty : ∀ z, (m0.find z).modifies = ∅ := by
    intro z
    unfold DepMap.find
    by_cases hz : z ∈ m0.keys
    · simp only [hz, if_true]
      exact constructMapRecursive_empty_modifies bv m0 hrec z
    · simp [hz]
      rfl
  obtain ⟨⟨hdy, _, _⟩, _⟩ := constructMapInverse_find m0 y
  obtain ⟨_, hmx⟩ := constructMapInverse_find m0 x
  rw [hdy, hmx y, hmodempty x]
  simp only [Finset.not_mem_empty, false_or]
  unfold DepMap.find
  by_cases hy : y ∈ m0.keys
  · simp [hy]
  · simp [hy]
    intro hc
    rw [show (default : VarInfo).dependsOn = ∅ from rfl] at hc
    exact absurd hc (Finset.not_mem_empty x)

theorem constructMap_wf (bv : BlockVariables) (m : DepMap)
    (hok : constructMap bv = .ok m) : WFMap m := by
  obtain ⟨m0, hrec, heq⟩ := constructMap_ok_cases bv m hok
  constructor
  · intro x hx
    constructor
    · intro d hd
      rw [heq] at hx hd ⊢
      rw [← DepMap.find_eq_val _ _ hx] at hd
      obtain ⟨⟨hdx, _, _⟩, _⟩ := constructMapInverse_find m0 x
      rw [hdx] at hd
      rw [constructMapInverse_keys]
      unfold DepMap.find at hd
      by_cases hx0 : x ∈ m0.keys
      · rw [if_pos hx0] at hd
        exact Or.inr ⟨x, hx0, hd⟩
      · rw [if_neg hx0] at hd
        rw [show (default : VarInfo).dependsOn = ∅ from rfl] at hd
        exact absurd hd (Finset.not_mem_empty d)
    · intro d hd
      rw [heq] at hx hd ⊢
      rw [← DepMap.find_eq_val _ _ hx] at hd
      obtain ⟨_, hmx⟩ := constructMapInverse_find m0 x
      rw [hmx d] at hd
      have hmodempty : (m0.find x).modifies = ∅ := by
        unfold DepMap.find
        by_cases hz : x ∈ m0.keys
        · simp only [hz, if_true]
          exact constructMapRecursive_empty_modifies bv m0 hrec x
        · simp [hz]
          rfl
      rw [hmodempty] at hd
      rcases hd with hd | ⟨hd1, _⟩
      · exact absurd hd (Finset.not_mem_empty d)
      · rw [constructMapInverse_keys]
        exact Or.inl hd1
  · intro x hx y hy
    have := constructMap_inverse_find bv m hok x y
    rw [DepMap.find_eq_val _ _ hx, DepMap.find_eq_val _ _ hy] at this
    exact this

theorem constructMap_dup (bv : BlockVariables) (hdup : ¬ (nonConstIds bv).Nodup) :
    constructMap bv = .error .schnekException := by
  unfold constructMap
  cases hres : constructMapRecursive bv DepMap.empty with
  | error e =>
    rw [constructMapRecursive_error bv DepMap.empty e hres]
    rfl
  | ok m0 =>
    exfalso
    obtain ⟨_, h2, _, _, _⟩ := constructMapRecursive_spec bv DepMap.empty m0 hres
    exact hdup h2

/-! ## Out-of-subgraph references are ignored by the topological pass -/

theorem setCounter_resp (h1 h2 : DepMap) (D : Finset Int) (id c : Int)
    (hkeys : h1.keys = h2.keys)
    (hvals : ∀ x, (h1.find x).counter = (h2.find x).counter ∧
      (h1.find x).modifies = (h2.find x).modifies ∧
      (h1.find x).v = (h2.find x).v ∧
      (h1.find x).dependsOn ∩ D = (h2.find x).dependsOn ∩ D) :
    (h1.setCounter id c).keys = (h2.setCounter id c).keys ∧
    ∀ x, ((h1.setCounter id c).find x).counter = ((h2.setCounter id c).find x).counter ∧
      ((h1.setCounter id c).find x).modifies = ((h2.setCounter id c).find x).modifies ∧
      ((h1.setCounter id c).find x).v = ((h2.setCounter id c).find x).v ∧
      ((h1.setCounter id c).find x).dependsOn ∩ D =
        ((h2.setCounter id c).find x).dependsOn ∩ D := by
  constructor
  · unfold DepMap.setCounter
    rw [DepMap.keys_set, DepMap.keys_set, hkeys]
  · intro x
    rw [DepMap.find_setCounter, DepMap.find_setCounter]
    by_cases hx : x = id
    · subst hx
      simp only [if_pos rfl]
      obtain ⟨_, hm, hv, hd⟩ := hvals x
      exact ⟨rfl, hm, hv, hd⟩
    · simp only [hx, if_false]
      exact hvals x

theorem countersFold_resp (l : List Int) (h1 h2 : DepMap) (D : Finset Int)
    (hkeys : h1.keys = h2.keys)
    (hvals : ∀ x, (h1.find x).counter = (h2.find x).counter ∧
      (h1.find x).modifies = (h2.find x).modifies ∧
      (h1.find x).v = (h2.find x).v ∧
      (h1.find x).dependsOn ∩ D = (h2.find x).dependsOn ∩ D) :
    (l.foldl (fun acc id =>
        acc.setCounter id ((((acc.find id).dependsOn ∩ D).card : Int))) h1).keys =
      (l.foldl (fun acc id =>
        acc.setCounter id ((((acc.find id).dependsOn ∩ D).card : Int))) h2).keys ∧
    ∀ x, ((l.foldl (fun acc id =>
        acc.setCounter id ((((acc.find id).dependsOn ∩ D).card : Int))) h1).find x).counter =
      ((l.foldl (fun acc id =>
        acc.setCounter id ((((acc.find id).dependsOn ∩ D).card : Int))) h2).find x).counter ∧
      ((l.foldl (fun acc id =>
        acc.setCounter id ((((acc.find id).dependsOn ∩ D).card : Int))) h1).find x).modifies =
      ((l.foldl (fun acc id =>
        acc.setCounter id ((((acc.find id).dependsOn ∩ D).card : Int))) h2).find x).modifies ∧
      ((l.foldl (fun acc id =>
        acc.setCounter id ((((acc.find id).dependsOn ∩ D).card : Int))) h1).find x).v =
      ((l.foldl (fun acc id =>
        acc.setCounter id ((((acc.find id).dependsOn ∩ D).card : Int))) h2).find x).v ∧
      ((l.foldl (fun acc id =>
        acc.setCounter id ((((acc.find id).dependsOn ∩ D).card : Int))) h1).find x).dependsOn ∩ D =
      ((l.foldl (fun acc id =>
        acc.setCounter id ((((acc.find id).dependsOn ∩ D).card : Int))) h2).find x).dependsOn ∩ D := by
  induction l generalizing h1 h2 with
  | nil => exact ⟨hkeys, hvals⟩
  | cons id rest ih =>
    simp only [List.foldl_cons]
    have hc : (((h1.find id).dependsOn ∩ D).card : Int) =
        (((h2.find id).dependsOn ∩ D).card : Int) := by
      rw [(hvals id).2.2.2]
    rw [hc]
    obtain ⟨hk1, hv1⟩ := setCounter_resp h1 h2 D id
      ((((h2.find id).dependsOn ∩ D).card : Int)) hkeys hvals
    exact ih _ _ hk1 hv1

theorem decrFold_resp (ds : List Int) (h1 h2 : DepMap) (D : Finset Int)
    (hkeys : h1.keys = h2.keys)
    (hvals : ∀ x, (h1.find x).counter = (h2.find x).counter ∧
      (h1.find x).modifies = (h2.find x).modifies ∧
      (h1.find x).v = (h2.find x).v ∧
      (h1.find x).dependsOn ∩ D = (h2.find x).dependsOn ∩ D) :
    (∃ e, decrFold h1 D ds = .error e ∧ decrFold h2 D ds = .error e) ∨
    (∃ g1 g2, decrFold h1 D ds = .ok g1 ∧ decrFold h2 D ds = .ok g2 ∧
      g1.keys = g2.keys ∧
      ∀ x, (g1.find x).counter = (g2.find x).counter ∧
        (g1.find x).modifies = (g2.find x).modifies ∧
        (g1.find x).v = (g2.find x).v ∧
        (g1.find x).dependsOn ∩ D = (g2.find x).dependsOn ∩ D) := by
  induction ds generalizing h1 h2 with
  | nil => exact Or.inr ⟨h1, h2, rfl, rfl, hkeys, hvals⟩
  | cons d rest ih =>
    unfold decrFold
    by_cases hdD : d ∈ D
    · simp only [hdD, not_true_eq_false, if_false]
      rw [(hvals d).1]
      by_cases hlt : (h2.find d).counter - 1 < 0
      · simp only [hlt, if_true]
        exact Or.inl ⟨.assertFailed, rfl, rfl⟩
      · simp only [hlt, if_false]
        obtain ⟨hk1, hv1⟩ := setCounter_resp h1 h2 D d ((h2.find d).counter - 1)
          hkeys hvals
        exact ih _ _ hk1 hv1
    · simp only [hdD, not_false_eq_true, if_true]
      exact ih h1 h2 hkeys hvals

theorem orderLoopFuel_resp (fuel : Nat) (D : Finset Int) (W : List Int)
    (acc : List (Int × Option Variable)) (h1 h2 : DepMap)
    (hkeys : h1.keys = h2.keys)
    (hvals : ∀ x, (h1.find x).counter = (h2.find x).counter ∧
      (h1.find x).modifies = (h2.find x).modifies ∧
      (h1.find x).v = (h2.find x).v ∧
      (h1.find x).dependsOn ∩ D = (h2.find x).dependsOn ∩ D) :
    (orderLoopFuel fuel h1 D W acc).map (fun r => r.2) =
      (orderLoopFuel fuel h2 D W acc).map (fun r => r.2) := by
  induction fuel generalizing h1 h2 W acc with
  | zero => simp [orderLoopFuel, Except.map]
  | succ fuel ih =>
    match W with
    | [] => simp [orderLoopFuel, Except.map]
    | w :: rest =>
      unfold orderLoopFuel
      have hpred : (fun id => (h1.find id).counter == 0) =
          (fun id => (h2.find id).counter == 0) := by
        funext id
        rw [(hvals id).1]
      rw [hpred]
      cases hfind : (w :: rest).find? (fun id => (h2.find id).counter == 0) with
      | none => simp
      | some id =>
        simp only
        have hmods : ascSort (h1.find id).modifies =
            ascSort (h2.find id).modifies := by
          rw [(hvals id).2.1]
        rw [hmods]
        rcases decrFold_resp (ascSort (h2.find id).modifies) h1 h2 D hkeys hvals with
          ⟨e, he1, he2⟩ | ⟨g1, g2, hg1, hg2, hgk, hgv⟩
        · rw [he1, he2]
        · rw [hg1, hg2]
          simp only
          rw [(hvals id).2.2.1]
          exact ih _ _ _ _ hgk hgv

theorem filterDependsOn_resp (h : DepMap) (D : Finset Int) :
    (filterDependsOn h D).keys = h.keys ∧
    ∀ x, ((filterDependsOn h D).find x).counter = (h.find x).counter ∧
      ((filterDependsOn h D).find x).modifies = (h.find x).modifies ∧
      ((filterDependsOn h D).find x).v = (h.find x).v ∧
      ((filterDependsOn h D).find x).dependsOn ∩ D = (h.find x).dependsOn ∩ D := by
  refine ⟨rfl, fun x => ?_⟩
  unfold filterDependsOn DepMap.find
  by_cases hx : x ∈ h.keys <;>
    simp [hx, Finset.inter_assoc, Finset.inter_self]

theorem makeUpdateOrder_filter_eq (h : DepMap) (inds : List Variable) (D : Finset Int) :
    orderListOf (filterDependsOn h D) inds D = orderListOf h inds D := by
  unfold orderListOf
  rw [makeUpdateOrder_eq_loop, makeUpdateOrder_eq_loop]
  obtain ⟨hk0, hv0⟩ := filterDependsOn_resp h D
  obtain ⟨hk1, hv1⟩ := countersFold_resp (ascSort D) (filterDependsOn h D) h D hk0 hv0
  exact orderLoopFuel_resp _ _ _ _ _ _ hk1 hv1

/-! ## Claim theorems -/

theorem foldl_const {α β : Type} (l : List β) (a : α) (f : α → β → α)
    (hf : ∀ x y, f x y = x) : l.foldl f a = a := by
  induction l generalizing a with
  | nil => rfl
  | cons b rest ih => rw [List.foldl_cons, hf, ih]

theorem resetCounters_id (m : DepMap) : resetCounters m = m :=
  foldl_const _ _ _ (fun _ _ => rfl)

theorem updListIds_cases (m : DepMap) (inds dvs : List Variable) (ids : List Int)
    (hok : updListIds m inds dvs = .ok ids) :
    ∃ h2 L, makeUpdateList m inds dvs = .ok (h2, L) ∧ ids = L.map Prod.fst := by
  unfold updListIds at hok
  cases hres : makeUpdateList m inds dvs with
  | error e =>
    rw [hres] at hok
    exact absurd hok (by simp [Except.map])
  | ok r =>
    obtain ⟨h2, L⟩ := r
    rw [hres] at hok
    simp only [Except.map, Except.ok.injEq] at hok
    exact ⟨h2, L, rfl, hok.symm⟩

/-- Claim C1: topological validity of the resolver output.  For every list
of identifiers produced by `makeUpdateList` on a well-formed dependency map,
and for every entry `x` of the list, every identifier in `x`'s `dependsOn`
set that is also present in the list appears strictly earlier (in the prefix
`l1` preceding `x`). -/
theorem C1_topological_validity (m : DepMap) (inds dvs : List Variable)
    (ids : List Int) (hwf : WFMap m)
    (hok : updListIds m inds dvs = .ok ids) :
    ∀ l1 x l2, ids = l1 ++ x :: l2 →
      ∀ d ∈ (m.find x).dependsOn, d ∈ ids → d ∈ l1 := by
  obtain ⟨h2, L, hres, rfl⟩ := updListIds_cases m inds dvs ids hok
  obtain ⟨hmem, _⟩ := makeUpdateList_ok_mem m inds dvs h2 L hres
  obtain ⟨_, htopo⟩ := makeUpdateList_ok_topo m inds dvs hwf h2 L hres
  intro l1 x l2 hsplit d hd hdids
  exact htopo l1 x l2 hsplit d hd ((hmem d).mp hdids)

/-- Witness for C1: on the example graph (`A ← B ← C`, plus unrelated `D`)
with independents `{A}` and dependents `{C}`, the resolver produces
`[1, 2, 3]` and the topological-validity property holds for it. -/
theorem C1_witness :
    WFMap exampleMap ∧ updListIds exampleMap [varA] [varC] = .ok [1, 2, 3] ∧
      (∀ l1 x l2, ([1, 2, 3] : List Int) = l1 ++ x :: l2 →
        ∀ d ∈ (exampleMap.find x).dependsOn, d ∈ ([1, 2, 3] : List Int) → d ∈ l1) :=
  ⟨by decide, by rfl,
    C1_topological_validity exampleMap [varA] [varC] [1, 2, 3] (by decide) (by rfl)⟩

/-- Claim C2: completeness and minimality of the resolver output.  Every
list of identifiers produced by `makeUpdateList` contains exactly those
nodes that are (a) in the backward transitive closure of the dependents
along `dependsOn` edges and (b) reachable from some independent variable by
following `modifies` edges while staying inside set (a). -/
theorem C2_completeness (m : DepMap) (inds dvs : List Variable) (ids : List Int)
    (hok : updListIds m inds dvs = .ok ids) :
    ∀ x, x ∈ ids ↔ (requiredBy m dvs x ∧ relevantNode m inds dvs x) := by
  obtain ⟨h2, L, hres, rfl⟩ := updListIds_cases m inds dvs ids hok
  obtain ⟨hmem, _⟩ := makeUpdateList_ok_mem m inds dvs h2 L hres
  intro x
  rw [hmem x, followers_char]

/-- Witness for C2: the concrete scenario produces `[1, 2, 3]` (node 4 is
pruned), and the characterization holds for it. -/
theorem C2_witness :
    updListIds exampleMap [varA] [varC] = .ok [1, 2, 3] ∧
      (∀ x, x ∈ ([1, 2, 3] : List Int) ↔
        (requiredBy exampleMap [varC] x ∧ relevantNode exampleMap [varA] [varC] x)) :=
  ⟨by rfl, C2_completeness exampleMap [varA] [varC] [1, 2, 3] (by rfl)⟩

/-- Counterexample for C3 as stated: on the two-node cycle the resolve call
does not surface a dedicated typed `CycleDetectedError` — the code has no
such error type; it dies on `assert(nextEval != 0)` (a process abort,
embedded as the `assertFailed` outcome), which is distinct from its only
typed exception channel `SchnekException`. -/
theorem C3_counterexample :
    makeUpdateList cycleMap [cycA] [cycB] = .error .assertFailed ∧
      SchnekError.assertFailed ≠ SchnekError.schnekException := ⟨by rfl, by decide⟩

/-- Claim C3 (amended): for every input whose relevant subgraph contains a
dependency cycle, `makeUpdateList` on a well-formed map halts with the
failed assertion `assert(nextEval != 0)` (embedded as the `assertFailed`
error outcome); it never returns a truncated `ok` list (and, the embedding
being total, it cannot loop forever). -/
theorem C3_cycle_assert (m : DepMap) (inds dvs : List Variable) (hwf : WFMap m)
    (hcyc : hasCycleIn m (makeUpdateFollowers (makeUpdatePredecessors m dvs).1 inds
      (makeUpdatePredecessors m dvs).2)) :
    makeUpdateList m inds dvs = .error .assertFailed :=
  makeUpdateList_cycle_error m inds dvs hwf hcyc

/-- Witness for C3: the two-node cycle `A ↔ B` is a cycle of the relevant
subgraph and the resolver fails with the assertion outcome on it. -/
theorem C3_witness :
    WFMap cycleMap ∧
      hasCycleIn cycleMap (makeUpdateFollowers (makeUpdatePredecessors cycleMap [cycB]).1
        [cycA] (makeUpdatePredecessors cycleMap [cycB]).2) ∧
      makeUpdateList cycleMap [cycA] [cycB] = .error .assertFailed := by
  have h12 : (1 : Int) ∈ makeUpdateFollowers (makeUpdatePredecessors cycleMap [cycB]).1
      [cycA] (makeUpdatePredecessors cycleMap [cycB]).2 ∧
      (2 : Int) ∈ makeUpdateFollowers (makeUpdatePredecessors cycleMap [cycB]).1
      [cycA] (makeUpdatePredecessors cycleMap [cycB]).2 ∧
      (2 : Int) ∈ (cycleMap.find 1).dependsOn := ⟨by decide, by decide, by decide⟩
  have h21 : (2 : Int) ∈ makeUpdateFollowers (makeUpdatePredecessors cycleMap [cycB]).1
      [cycA] (makeUpdatePredecessors cycleMap [cycB]).2 ∧
      (1 : Int) ∈ makeUpdateFollowers (makeUpdatePredecessors cycleMap [cycB]).1
      [cycA] (makeUpdatePredecessors cycleMap [cycB]).2 ∧
      (1 : Int) ∈ (cycleMap.find 2).dependsOn := ⟨h12.2.1, h12.1, by decide⟩
  have hcyc : hasCycleIn cycleMap
      (makeUpdateFollowers (makeUpdatePredecessors cycleMap [cycB]).1 [cycA]
        (makeUpdatePredecessors cycleMap [cycB]).2) :=
    ⟨1, Relation.TransGen.head h12 (Relation.TransGen.single h21)⟩
  exact ⟨by decide, hcyc, C3_cycle_assert cycleMap [cycA] [cycB] (by decide) hcyc⟩

/-- Claim C4: duplicate-identifier rejection at build time.  If the
non-constant variables encountered by the construction traversal contain a
repeated identifier, `constructMap` fails with the thrown exception
(`throw SchnekException()`, the construction-time error the specification
calls `DuplicateVariableError`), and no map is produced. -/
theorem C4_duplicate_rejected (bv : BlockVariables)
    (hdup : ¬ (nonConstIds bv).Nodup) :
    constructMap bv = .error .schnekException :=
  constructMap_dup bv hdup

/-- Witness for C4: a tree whose child scope re-declares identifier 1 is
rejected. -/
theorem C4_witness :
    ¬ (nonConstIds dupTree).Nodup ∧ constructMap dupTree = .error .schnekException :=
  ⟨by decide, C4_duplicate_rejected dupTree (by decide)⟩

/-- Claim C5: inverse-relation invariant after build.  After `constructMap`
succeeds, for every pair of nodes `x`, `y` of the map, `x` is in `y`'s
`dependsOn` set exactly when `y` is in `x`'s `modifies` set. -/
theorem C5_inverse_invariant (bv : BlockVariables) (m : DepMap)
    (hok : constructMap bv = .ok m) :
    ∀ x ∈ m.keys, ∀ y ∈ m.keys,
      (x ∈ (m.val y).dependsOn ↔ y ∈ (m.val x).modifies) :=
  (constructMap_wf bv m hok).2

/-- Witness for C5: the invariant holds on the freshly built example map. -/
theorem C5_witness :
    constructMap exampleTree = .ok exampleMap ∧
      ∀ x ∈ exampleMap.keys, ∀ y ∈ exampleMap.keys,
        (x ∈ (exampleMap.val y).dependsOn ↔ y ∈ (exampleMap.val x).modifies) :=
  ⟨by rfl, C5_inverse_invariant exampleTree exampleMap (by rfl)⟩

/-- Claim C6 (code bug): `resetCounters` as written iterates the map by
value (`BOOST_FOREACH(DepMap::value_type entry, dependencies)`), so the
counter assignment mutates a per-iteration copy: on a map whose node 2 has
`dependsOn` of size 1 but a stale counter 5, the counter is still 5 after
the call instead of 1. -/
theorem C6_resetCounters_stale :
    ((resetCounters staleMap).find 2).counter = 5 ∧
      (((staleMap.find 2).dependsOn.card : Int)) = 1 ∧ (5 : Int) ≠ 1 := by
  refine ⟨?_, by decide, by decide⟩
  rw [resetCounters_id]
  decide

/-- Counterexample for C7 as stated: calling `makeUpdateList` with a
dependent variable whose identifier (99) is not a node of the map inserts a
new node — `dependencies[id]` in `makeUpdatePredecessors` default-inserts —
so the key set after the call differs from the key set before it. -/
theorem C7_counterexample :
    updMapKeys exampleMap [varA] [varX] = .ok {99, 4, 3, 2, 1} ∧
      exampleMap.keys = {4, 3, 2, 1} ∧
      ({99, 4, 3, 2, 1} : Finset Int) ≠ {4, 3, 2, 1} := by
  refine ⟨by rfl, by decide, by decide⟩

/-- Claim C7 (amended): graph immutability under resolution, provided every
dependent variable's identifier is already a node of the well-formed map
(as is the case for variables of the scope tree the map was built from).
Then a successful `makeUpdateList` call leaves the key set identical and
every node's `dependsOn`, `modifies` and `v` fields unchanged — only the
transient counters may differ. -/
theorem C7_frame (m : DepMap) (inds dvs : List Variable) (h2 : DepMap)
    (L : List (Int × Option Variable)) (hwf : WFMap m)
    (hdep : ∀ v ∈ dvs, v.id ∈ m.keys)
    (hok : makeUpdateList m inds dvs = .ok (h2, L)) :
    h2.keys = m.keys ∧ ∀ x, (h2.find x).dependsOn = (m.find x).dependsOn ∧
      (h2.find x).modifies = (m.find x).modifies ∧ (h2.find x).v = (m.find x).v :=
  makeUpdateList_frame_raw m inds dvs hwf hdep h2 L hok

/-- Witness for C7: on the concrete run of the example scenario, the heap
after the call has the same keys and edges as the input map. -/
theorem C7_witness :
    WFMap exampleMap ∧ (∀ v ∈ [varC], v.id ∈ exampleMap.keys) ∧
      makeUpdateList exampleMap [varA] [varC] = .ok (exampleRun.1, exampleRun.2) ∧
      (exampleRun.1.keys = exampleMap.keys ∧
        ∀ x, (exampleRun.1.find x).dependsOn = (exampleMap.find x).dependsOn ∧
          (exampleRun.1.find x).modifies = (exampleMap.find x).modifies ∧
          (exampleRun.1.find x).v = (exampleMap.find x).v) :=
  ⟨by decide, by decide, by rfl,
    C7_frame exampleMap [varA] [varC] exampleRun.1 exampleRun.2 (by decide)
      (by decide) (by rfl)⟩

/-- Claim C8: benign unresolvable references.  A `dependsOn` identifier with
no corresponding node in the topological pass's subgraph `D` (in particular
one naming a constant or out-of-scope variable, which is never a key of the
subgraph) contributes nothing: erasing all such identifiers from every
node's `dependsOn` set (`filterDependsOn`) changes neither the produced
order nor the success/error outcome of `makeUpdateOrder`, so such references
are treated as already satisfied, never block resolution, and never cause an
error. -/
theorem C8_unresolved_refs_ignored (h : DepMap) (inds : List Variable) (D : Finset Int) :
    orderListOf (filterDependsOn h D) inds D = orderListOf h inds D :=
  makeUpdateOrder_filter_eq h inds D

/-- Claim C9: cache invalidation on set mutation.  `addIndependent v`
inserts `v` into the independent set and clears the validity flag;
`addDependent v` inserts `v` into the dependent set and clears the validity
flag; no other session state changes. -/
theorem C9_add_invalidates (s : DependencyUpdater) (v : Variable) :
    (s.addIndependent v).independentVars = insert v s.independentVars ∧
    (s.addIndependent v).isValid = false ∧
    (s.addIndependent v).dependentVars = s.dependentVars ∧
    (s.addIndependent v).updateList = s.updateList ∧
    (s.addIndependent v).dependencies = s.dependencies ∧
    (s.addDependent v).dependentVars = insert v s.dependentVars ∧
    (s.addDependent v).isValid = false ∧
    (s.addDependent v).independentVars = s.independentVars ∧
    (s.addDependent v).updateList = s.updateList ∧
    (s.addDependent v).dependencies = s.dependencies :=
  ⟨rfl, rfl, rfl, rfl, rfl, rfl, rfl, rfl, rfl, rfl⟩

/-- Claim C10: a freshly constructed `DependencyUpdater` starts with its
validity flag `true`, empty independent and dependent sets, and no computed
update list. -/
theorem C10_fresh_updater_valid (d : DepMap) :
    (DependencyUpdater.create d).isValid = true ∧
    (DependencyUpdater.create d).independentVars = ∅ ∧
    (DependencyUpdater.create d).dependentVars = ∅ ∧
    (DependencyUpdater.create d).updateList = [] :=
  ⟨rfl, rfl, rfl, rfl⟩

end Schnek
